import Mathlib

/-!
Verification of the vault-configuration core of `owlbear-dm-panel`:
`ConfigParser` (src/js/parsers/ConfigParser.js) and the cache subsystem.

JavaScript values reachable from JSON (plus `undefined`) are shallowly
embedded as `JSValue`.  Numbers are embedded as `Int`: no claim depends on
fractional values and JSON cannot carry `NaN`/`Infinity`.  A JS array can
carry extra named properties (created by assignments such as
`migrated.categories = []` on an array), so the `arr` constructor carries a
property list alongside its elements; plain JSON arrays have no properties.
Objects are ordered property lists, as JS objects preserve insertion order.
Code that can raise a `TypeError` (calling `.map` on a non-array, or a
strict-mode assignment to a property of a primitive — the source is an ES
module, hence strict) is embedded in `Except String`.
-/

namespace DMPanel

inductive JSValue where
  | undefined : JSValue
  | null : JSValue
  | bool : Bool → JSValue
  | num : Int → JSValue
  | str : String → JSValue
  | arr : List JSValue → List (String × JSValue) → JSValue
  | obj : List (String × JSValue) → JSValue

/-- JS truthiness: `undefined`, `null`, `false`, `0` and `""` are falsy. -/
def truthy : JSValue → Bool
  | .undefined => false
  | .null => false
  | .bool b => b
  | .num n => n != 0
  | .str s => s != ""
  | .arr _ _ => true
  | .obj _ => true

/-- `Array.isArray`. -/
def isArray : JSValue → Bool
  | .arr _ _ => true
  | _ => false

/-- `typeof v === 'string'`. -/
def isString : JSValue → Bool
  | .str _ => true
  | _ => false

/-- First-match lookup in an ordered key/value list. -/
def lookupKey {α : Type} : List (String × α) → String → Option α
  | [], _ => none
  | (k, v) :: rest, key => if k = key then some v else lookupKey rest key

/-- Write a key: overwrite the first occurrence in place (a JS object keeps
the original insertion position of a re-assigned key), append when fresh. -/
def putKey {α : Type} : List (String × α) → String → α → List (String × α)
  | [], key, v => [(key, v)]
  | (k, w) :: rest, key, v =>
      if k = key then (key, v) :: rest else (k, w) :: putKey rest key v

/-- Delete a key. -/
def eraseKey {α : Type} : List (String × α) → String → List (String × α)
  | [], _ => []
  | (k, w) :: rest, key =>
      if k = key then eraseKey rest key else (k, w) :: eraseKey rest key

/-- Property read `v.key`.  Reading a property of a primitive yields
`undefined`; every property the source reads is absent from the relevant
prototypes, so prototype chains need not be modelled.  The source only ever
reads properties of values it has checked to be truthy, so the `TypeError`
on `null`/`undefined` bases is unreachable and `undefined` is returned there. -/
def getField : JSValue → String → JSValue
  | .obj fields, key => (lookupKey fields key).getD .undefined
  | .arr _ props, key => (lookupKey props key).getD .undefined
  | _, _ => .undefined

/-- Property write `v.key = w`.  In strict mode (ES module) an assignment to
a property of a primitive throws a `TypeError`; objects and arrays accept
the write. -/
def setField : JSValue → String → JSValue → Except String JSValue
  | .obj fields, key, v => .ok (.obj (putKey fields key v))
  | .arr elems props, key, v => .ok (.arr elems (putKey props key v))
  | _, _, _ => .error "TypeError: cannot create property on a primitive"

/-- JS `a || b`. -/
def jsOr (a b : JSValue) : JSValue :=
  if truthy a then a else b

/- `deepClone`: `JSON.parse(JSON.stringify(v))`.  Object properties holding
`undefined` are dropped, `undefined` array elements become `null`, and extra
named properties of arrays are dropped.  `migrate` only clones truthy
values, so the top-level `undefined` case is unreachable and maps to itself. -/
mutual
def deepClone : JSValue → JSValue
  | .arr elems _ => .arr (cloneElems elems) []
  | .obj fields => .obj (cloneFields fields)
  | v => v

def cloneElems : List JSValue → List JSValue
  | [] => []
  | .undefined :: rest => .null :: cloneElems rest
  | v :: rest => deepClone v :: cloneElems rest

def cloneFields : List (String × JSValue) → List (String × JSValue)
  | [] => []
  | (_, .undefined) :: rest => cloneFields rest
  | (k, v) :: rest => (k, deepClone v) :: cloneFields rest
end

/-- Every `JSValue` has positive derived size (used for termination). -/
lemma JSValue.one_le_sizeOf (v : JSValue) : 1 ≤ sizeOf v := by
  cases v <;> simp_arith

/-- A value found by `lookupKey` is smaller than the list it came from. -/
lemma lookupKey_sizeOf_lt {α : Type} [SizeOf α] :
    ∀ (l : List (String × α)) (key : String) (v : α),
      lookupKey l key = some v → sizeOf v < sizeOf l := by
  intro l key v h
  induction l with
  | nil => simp [lookupKey] at h
  | cons kw rest ih =>
      obtain ⟨k, w⟩ := kw
      by_cases hk : k = key
      · simp [lookupKey, hk] at h
        subst h
        simp
        omega
      · simp [lookupKey, hk] at h
        have := ih h
        simp
        omega

/-- A property read never increases the derived size (termination). -/
lemma getField_sizeOf_le (v : JSValue) (key : String) :
    sizeOf (getField v key) ≤ sizeOf v := by
  cases v with
  | obj fields =>
      simp only [getField]
      cases h : lookupKey fields key with
      | none => simp
      | some w =>
          have := lookupKey_sizeOf_lt fields key w h
          simp
          omega
  | arr elems props =>
      simp only [getField]
      cases h : lookupKey props key with
      | none => simp; omega
      | some w =>
          have := lookupKey_sizeOf_lt props key w h
          simp
          omega
  | undefined => simp [getField]
  | null => simp [getField]
  | bool b => simp [getField]
  | num n => simp [getField]
  | str s => simp [getField]

/-- Modelled from the spec: the `Page` model class (src/js/models/Page.js is
not present under src/; only its constructor calls are).  Per §3 a Page
stores its name, url and the visibility/metadata options passed by the
parser; derived fields (contentType, notionPageId) are not stored. -/
structure Page where
  name : JSValue
  url : JSValue
  visibleToPlayers : JSValue
  blockTypes : JSValue
  icon : JSValue
  linkedTokenId : JSValue

/-- Modelled from the spec: the `Category` model class (src/js/models/
Category.js is not present under src/).  Per §3 a Category stores a name, an
ordered sequence of Pages, an ordered sequence of child Categories and a
collapsed flag, exactly the fields the parser passes to its constructor. -/
inductive Category where
  | mk : JSValue → List Page → List Category → JSValue → Category

def Category.name : Category → JSValue
  | .mk n _ _ _ => n

def Category.pages : Category → List Page
  | .mk _ p _ _ => p

def Category.categories : Category → List Category
  | .mk _ _ c _ => c

def Category.collapsed : Category → JSValue
  | .mk _ _ _ c => c

/-- Modelled from the spec: the `Config` model class (src/js/models/Config.js
is not present under src/).  Per §3 it is the root aggregate holding the
ordered forest of categories; `new Config()` yields an empty sequence. -/
structure Config where
  categories : List Category := []

namespace ConfigParser

/-- `ConfigParser._parsePage` (ConfigParser.js lines 83-90). -/
def _parsePage (pageJson : JSValue) : Page :=
  { name := getField pageJson "name"
    url := getField pageJson "url"
    visibleToPlayers := jsOr (getField pageJson "visibleToPlayers") (.bool false)
    blockTypes := jsOr (getField pageJson "blockTypes") .null
    icon := jsOr (getField pageJson "icon") .null
    linkedTokenId := jsOr (getField pageJson "linkedTokenId") .null }

/-- `ConfigParser._parsePages` (lines 69-77): non-arrays yield `[]`; page
entries are kept when truthy with truthy `name` and `url`. -/
def _parsePages (pagesJson : JSValue) : List Page :=
  match pagesJson with
  | .arr elems _ =>
      (elems.filter fun page =>
        truthy page && truthy (getField page "name") && truthy (getField page "url"))
        |>.map _parsePage
  | _ => []

/- `_parseCategories` / `_parseCategory` (lines 40-63).  `_parseCategories`
checks `Array.isArray` and filter-maps; `parseCatList` is the
`filter(cat => cat && cat.name).map(cat => this._parseCategory(cat))`
pipeline written as one recursion (the filter/map form is recovered by
`parseCatList_eq_filter_map` below).  Inside `_parseCategory` the source
calls `this._parseCategories(categoryJson.categories || [])`; the `|| []`
default is absorbed by the `Array.isArray` guard (a falsy field and the
default `[]` both parse to `[]`), so the recursive call passes the raw
field — `parseCategoriesArg_jsOr` below proves the two forms equal. -/
mutual
def _parseCategories (categoriesJson : JSValue) : List Category :=
  match categoriesJson with
  | .arr elems _ => parseCatList elems
  | _ => []
termination_by 2 * sizeOf categoriesJson

def parseCatList (cats : List JSValue) : List Category :=
  match cats with
  | [] => []
  | cat :: rest =>
      if truthy cat && truthy (getField cat "name") then
        _parseCategory cat :: parseCatList rest
      else
        parseCatList rest
termination_by 2 * sizeOf cats + 1

def _parseCategory (categoryJson : JSValue) : Category :=
  Category.mk
    (getField categoryJson "name")
    (_parsePages (jsOr (getField categoryJson "pages") (.arr [] [])))
    (_parseCategories (getField categoryJson "categories"))
    (jsOr (getField categoryJson "collapsed") (.bool false))
termination_by 2 * sizeOf categoryJson + 1
decreasing_by
  have := getField_sizeOf_le categoryJson "categories"
  omega
end

/-- The recursive subcategory call with the raw field equals the source's
`_parseCategories(x || [])` form. -/
lemma parseCategoriesArg_jsOr (v : JSValue) :
    _parseCategories (jsOr v (.arr [] [])) = _parseCategories v := by
  cases v <;> simp [jsOr, truthy, _parseCategories, parseCatList] <;>
    split <;> simp [_parseCategories, parseCatList]

/-- `ConfigParser.parse` (lines 21-34), split into the guarded body and the
`try`/`catch`.  Every operation in the recursive descent is total in this
model (all property reads are guarded by truthiness checks in the source),
so the body is wrapped in `Except` only to mirror the `catch` shape. -/
def parseInner (json : JSValue) : Except String Config :=
  .ok { categories := _parseCategories (jsOr (getField json "categories") (.arr [] [])) }

/-- The `catch` branch: any internal fault degrades to an empty `Config`. -/
def parseCaught : Except String Config → Config
  | .ok c => c
  | .error _ => { categories := [] }

def parse (json : JSValue) : Config :=
  if !truthy json then { categories := [] }
  else parseCaught (parseInner json)

/-- `ConfigParser.validate` returns `{valid, errors}` (lines 97-125). -/
structure ValidationResult where
  valid : Bool
  errors : List String

/-- `ConfigParser._validatePage` (lines 168-189). -/
def _validatePage (page : JSValue) (path : String) : List String :=
  if !truthy page then [path ++ ": página vacía"]
  else
    (if !truthy (getField page "name") || !isString (getField page "name")
     then [path ++ ": falta nombre o no es string"] else [])
    ++ (if !truthy (getField page "url") || !isString (getField page "url")
        then [path ++ ": falta URL o no es string"] else [])
    ++ (if truthy (getField page "blockTypes") && !isArray (getField page "blockTypes")
        then [path ++ ".blockTypes: debe ser un array"] else [])

/-- The `pages.forEach((page, index) => ...)` loop of `_validateCategory`:
each element is validated at path `pre ++ "[" ++ index ++ "]"`. -/
def validatePageList (pages : List JSValue) (pre : String) (i : Nat) : List String :=
  match pages with
  | [] => []
  | page :: rest =>
      _validatePage page (pre ++ "[" ++ toString i ++ "]")
        ++ validatePageList rest pre (i + 1)

/- `_validateCategory` (lines 131-162) and its
`categories.forEach((subcat, index) => ...)` loop.  The source's
`if (x && !Array.isArray(x)) error; else if (x) forEach` pair collapses to a
match: arrays (always truthy) are traversed, truthy non-arrays produce the
"debe ser un array" error, falsy fields produce nothing. -/
mutual
def _validateCategory (category : JSValue) (path : String) : List String :=
  if !truthy category then [path ++ ": categoría vacía"]
  else
    (if !truthy (getField category "name") || !isString (getField category "name")
     then [path ++ ": falta nombre o no es string"] else [])
    ++ (match getField category "pages" with
        | .arr pages _ => validatePageList pages (path ++ ".pages") 0
        | v => if truthy v then [path ++ ".pages: debe ser un array"] else [])
    ++ validateCatsField (getField category "categories") path
termination_by (2 * sizeOf category + 1, 0)
decreasing_by
  have := getField_sizeOf_le category "categories"
  omega

def validateCatsField (v : JSValue) (path : String) : List String :=
  match v with
  | .arr subcats _ => validateCatList subcats (path ++ ".categories") 0
  | w => if truthy w then [path ++ ".categories: debe ser un array"] else []
termination_by (2 * sizeOf v, 1)

def validateCatList (cats : List JSValue) (pre : String) (i : Nat) : List String :=
  match cats with
  | [] => []
  | cat :: rest =>
      _validateCategory cat (pre ++ "[" ++ toString i ++ "]")
        ++ validateCatList rest pre (i + 1)
termination_by (2 * sizeOf cats + 1, 0)
end

/-- `ConfigParser.validate` (lines 97-125). -/
def validate (json : JSValue) : ValidationResult :=
  if !truthy json then { valid := false, errors := ["Configuración vacía"] }
  else if !truthy (getField json "categories") then
    { valid := false, errors := ["Falta el campo \"categories\""] }
  else
    match getField json "categories" with
    | .arr cats _ =>
        let errors := validateCatList cats "categories" 0
        { valid := errors.isEmpty, errors := errors }
    | _ => { valid := false, errors := ["\"categories\" debe ser un array"] }

/-- `ConfigParser._migratePage` (lines 239-250): a falsy page or a page with
a falsy `url` migrates to `null`; otherwise a fresh object is built, with
`visibleToPlayers: page.visibleToPlayers || page.visible || false` and the
optional fields spread in only when truthy. -/
def _migratePage (page : JSValue) : JSValue :=
  if !truthy page || !truthy (getField page "url") then .null
  else
    .obj ([("name", jsOr (getField page "name") (.str "Unnamed Page")),
           ("url", getField page "url"),
           ("visibleToPlayers",
            jsOr (jsOr (getField page "visibleToPlayers") (getField page "visible"))
              (.bool false))]
      ++ (if truthy (getField page "blockTypes")
          then [("blockTypes", getField page "blockTypes")] else [])
      ++ (if truthy (getField page "icon")
          then [("icon", getField page "icon")] else [])
      ++ (if truthy (getField page "linkedTokenId")
          then [("linkedTokenId", getField page "linkedTokenId")] else []))

/-- The `(category.pages || []).map(p => this._migratePage(p)).filter(p => p)`
expression of `_migrateCategory` (line 223): a falsy `pages` field maps the
default `[]`; a truthy non-array has no `.map` method and throws. -/
def migratePagesOf (v : JSValue) : Except String (List JSValue) :=
  match v with
  | .arr elems _ => .ok ((elems.map _migratePage).filter truthy)
  | w =>
      if truthy w then .error "TypeError: category.pages.map is not a function"
      else .ok []

/- `_migrateCategory` (lines 217-233) and the
`(category.categories || []).map(c => this._migrateCategory(c)).filter(c => c)`
expression (line 224), with `migrateCatList` the element-wise `.map` of the
throwing `_migrateCategory` (a thrown `TypeError` aborts the whole `.map`,
which `Except` sequencing mirrors). -/
mutual
def _migrateCategory (category : JSValue) : Except String JSValue :=
  if !truthy category then .ok .null
  else do
    let pages ← migratePagesOf (getField category "pages")
    let subcats ← migrateCategoriesOf (getField category "categories")
    let migrated : JSValue :=
      .obj [("name", jsOr (getField category "name") (.str "Unnamed Category")),
            ("pages", .arr pages []),
            ("categories", .arr subcats [])]
    match getField category "collapsed" with
    | .undefined => .ok migrated
    | c => setField migrated "collapsed" c
termination_by (2 * sizeOf category + 1, 0)
decreasing_by
  have := getField_sizeOf_le category "categories"
  omega

def migrateCategoriesOf (v : JSValue) : Except String (List JSValue) :=
  match v with
  | .arr elems _ => do
      let ms ← migrateCatList elems
      .ok (ms.filter truthy)
  | w =>
      if truthy w then .error "TypeError: category.categories.map is not a function"
      else .ok []
termination_by (2 * sizeOf v, 1)

def migrateCatList (cats : List JSValue) : Except String (List JSValue) :=
  match cats with
  | [] => .ok []
  | cat :: rest => do
      let m ← _migrateCategory cat
      let ms ← migrateCatList rest
      .ok (m :: ms)
termination_by (2 * sizeOf cats + 1, 0)
end

/-- `ConfigParser.migrate` (lines 196-211): falsy input yields
`{categories: []}`; otherwise the input is deep-cloned, a falsy `categories`
is replaced by `[]` (a strict-mode property write, which throws on a
primitive), and `migrated.categories = migrated.categories.map(...)` maps
`_migrateCategory` over the array — with no `.filter` at this level, unlike
the nested one — throwing if `categories` is a truthy non-array. -/
def migrate (json : JSValue) : Except String JSValue :=
  if !truthy json then .ok (.obj [("categories", .arr [] [])])
  else do
    let cloned := deepClone json
    let migrated ←
      if !truthy (getField cloned "categories")
      then setField cloned "categories" (.arr [] [])
      else .ok cloned
    match getField migrated "categories" with
    | .arr elems _ => do
        let ms ← migrateCatList elems
        setField migrated "categories" (.arr ms [])
    | _ => .error "TypeError: migrated.categories.map is not a function"

end ConfigParser

/-- Modelled from the spec: `CacheService` (src/js/services/CacheService.js
is not present under src/; only src/tests/unit/services/CacheService.test.js
is).  Per §3/§4.2 it holds three independent tiers keyed by page id: the
persisted blocks tier, the persisted page-info tier, and the in-memory
rendered-HTML tier bounded to 20 entries with FIFO eviction.  Each tier is
an insertion-ordered key/value list; `new CacheService()` starts all tiers
empty (the persisted tiers are namespaced per page id and never collide). -/
structure CacheService where
  localHtmlCache : List (String × String) := []
  blocksCache : List (String × JSValue) := []
  pageInfoCache : List (String × JSValue) := []

namespace CacheService

/-- Modelled from the spec: the HTML tier's fixed capacity of 20 entries. -/
def HTML_CACHE_LIMIT : Nat := 20

/-- Modelled from the spec: `saveHtmlToLocalCache(pageId, html)` writes the
entry (overwriting in place keeps a key's original insertion position) and,
beyond capacity, evicts the oldest entry by insertion order (FIFO). -/
def saveHtmlToLocalCache (s : CacheService) (pageId html : String) : CacheService :=
  let cache := putKey s.localHtmlCache pageId html
  { s with localHtmlCache :=
      if HTML_CACHE_LIMIT < cache.length then cache.tail else cache }

/-- Modelled from the spec: `getHtmlFromLocalCache(pageId) → string | null`;
a read never changes the cache, so an entry's position is not refreshed. -/
def getHtmlFromLocalCache (s : CacheService) (pageId : String) : Option String :=
  lookupKey s.localHtmlCache pageId

/-- Modelled from the spec: `clearLocalCache()` empties the in-memory HTML
tier only. -/
def clearLocalCache (s : CacheService) : CacheService :=
  { s with localHtmlCache := [] }

/-- Modelled from the spec: `getCachedBlocks(pageId) → blocks | null`. -/
def getCachedBlocks (s : CacheService) (pageId : String) : Option JSValue :=
  lookupKey s.blocksCache pageId

/-- Modelled from the spec: `setCachedBlocks(pageId, blocks, forceRefresh)`;
the forced-vs-lazy distinction is a caller contract, not enforced
internally, so the write overwrites (the test saves with `false` into an
empty slot and reads the value back). -/
def setCachedBlocks (s : CacheService) (pageId : String) (blocks : JSValue)
    (_forceRefresh : Bool) : CacheService :=
  { s with blocksCache := putKey s.blocksCache pageId blocks }

/-- Modelled from the spec: `removeCachedBlocks(pageId)`; absence is not an
error. -/
def removeCachedBlocks (s : CacheService) (pageId : String) : CacheService :=
  { s with blocksCache := eraseKey s.blocksCache pageId }

/-- Modelled from the spec: `setCachedPageInfo(pageId, info)` stamps
`cachedAt` with the current time at write, passed here explicitly. -/
def setCachedPageInfo (s : CacheService) (pageId : String) (info : JSValue)
    (now : Int) : CacheService :=
  let stamped : JSValue :=
    match info with
    | .obj fields => .obj (putKey fields "cachedAt" (.num now))
    | v => v
  { s with pageInfoCache := putKey s.pageInfoCache pageId stamped }

/-- Modelled from the spec: `getCachedPageInfo(pageId) → info | null`. -/
def getCachedPageInfo (s : CacheService) (pageId : String) : Option JSValue :=
  lookupKey s.pageInfoCache pageId

end CacheService

/-! Helper lemmas. -/

lemma getField_of_falsy (json : JSValue) (key : String) (h : ¬ truthy json) :
    getField json key = .undefined := by
  cases json <;> simp_all [truthy, getField]

lemma parse_of_falsy (json : JSValue) (h : ¬ truthy json) :
    ConfigParser.parse json = { categories := [] } := by
  simp [ConfigParser.parse, h]

/-- Evaluating `parse` through the guarded body: on falsy input both sides
are the empty `Config` (the body sees no `categories` field either). -/
lemma parse_eq_caught_inner (json : JSValue) :
    ConfigParser.parse json = ConfigParser.parseCaught (ConfigParser.parseInner json) := by
  by_cases h : truthy json
  · simp [ConfigParser.parse, h]
  · rw [parse_of_falsy json h]
    simp [ConfigParser.parseCaught, ConfigParser.parseInner,
      getField_of_falsy json "categories" h, jsOr, truthy,
      ConfigParser._parseCategories, ConfigParser.parseCatList]

/-- C4: `parse` never signals an error to the caller: it always returns the
guarded body's result through the `catch` wrapper, `parse(null)` and
`parse(undefined)` both return a `Config` with an empty category sequence,
and the `catch` branch turns any internal exception into an empty `Config`. -/
theorem claim_C4 :
    ConfigParser.parse .null = { categories := [] } ∧
    ConfigParser.parse .undefined = { categories := [] } ∧
    (∀ json, ConfigParser.parse json =
      ConfigParser.parseCaught (ConfigParser.parseInner json)) ∧
    (∀ e, ConfigParser.parseCaught (.error e) = { categories := [] }) := by
  refine ⟨?_, ?_, parse_eq_caught_inner, fun e => rfl⟩
  · simp [ConfigParser.parse, truthy]
  · simp [ConfigParser.parse, truthy]

/-- C10: per-node degradation in `parse`: a kept category (truthy, truthy
name) stays in the parsed list even when its `pages` or `categories` field
is not an array — those fields then parse as the empty sequence — and a
non-array top-level `categories` yields an empty `Config`; meanwhile
`validate` does flag those same truthy non-array shapes as errors. -/
theorem claim_C10 :
    (∀ cats cat, cat ∈ cats → truthy cat → truthy (getField cat "name") →
      ConfigParser._parseCategory cat ∈ ConfigParser.parseCatList cats) ∧
    (∀ cat, ¬ isArray (getField cat "pages") →
      (ConfigParser._parseCategory cat).pages = []) ∧
    (∀ cat, ¬ isArray (getField cat "categories") →
      (ConfigParser._parseCategory cat).categories = []) ∧
    (∀ json, ¬ isArray (getField json "categories") →
      (ConfigParser.parse json).categories = []) ∧
    (∀ cat path, truthy cat → truthy (getField cat "pages") →
      ¬ isArray (getField cat "pages") →
      (path ++ ".pages: debe ser un array") ∈ ConfigParser._validateCategory cat path) ∧
    (∀ cat path, truthy cat → truthy (getField cat "categories") →
      ¬ isArray (getField cat "categories") →
      (path ++ ".categories: debe ser un array") ∈ ConfigParser._validateCategory cat path) ∧
    (∀ json, truthy json → truthy (getField json "categories") →
      ¬ isArray (getField json "categories") →
      (ConfigParser.validate json).valid = false ∧
        "\"categories\" debe ser un array" ∈ (ConfigParser.validate json).errors) := by
  refine ⟨?_, ?_, ?_, ?_, ?_, ?_, ?_⟩
  · intro cats cat
    induction cats with
    | nil => intro h _ _; simp at h
    | cons c rest ih =>
        intro hmem ht hn
        rw [ConfigParser.parseCatList]
        rcases List.mem_cons.mp hmem with hmem | hmem
        · subst hmem
          simp [ht, hn]
        · split
          · exact List.mem_cons_of_mem _ (ih hmem ht hn)
          · exact ih hmem ht hn
  · intro cat hp
    rw [ConfigParser._parseCategory]
    simp only [Category.pages]
    unfold jsOr
    split
    · cases h : getField cat "pages" <;>
        simp_all [ConfigParser._parsePages, isArray]
    · simp [ConfigParser._parsePages]
  · intro cat hc
    rw [ConfigParser._parseCategory]
    simp only [Category.categories]
    cases h : getField cat "categories" <;>
      simp_all [ConfigParser._parseCategories, isArray]
  · intro json hc
    by_cases ht : truthy json
    · simp only [ConfigParser.parse, ht, Bool.not_true, if_neg, Bool.false_eq_true,
        not_false_eq_true, ite_false, ConfigParser.parseCaught, ConfigParser.parseInner]
      unfold jsOr
      split
      · cases h : getField json "categories" <;>
          simp_all [ConfigParser._parseCategories, isArray]
      · simp [ConfigParser._parseCategories, ConfigParser.parseCatList]
    · simp [parse_of_falsy json ht]
  · intro cat path ht hp hpa
    rw [ConfigParser._validateCategory]
    simp only [ht, Bool.not_true, Bool.false_eq_true, not_false_eq_true, ite_false,
      if_neg]
    cases h : getField cat "pages" <;> simp_all [isArray]
  · intro cat path ht hc hca
    rw [ConfigParser._validateCategory]
    simp only [ht, Bool.not_true, Bool.false_eq_true, not_false_eq_true, ite_false,
      if_neg]
    cases h : getField cat "categories" <;>
      simp_all [isArray, ConfigParser.validateCatsField]
  · intro json ht hc hca
    simp only [ConfigParser.validate, ht, hc, Bool.not_true, Bool.false_eq_true,
      not_false_eq_true, ite_false, if_neg]
    cases h : getField json "categories" <;> simp_all [isArray]

/-- C10 witness: a concrete category with string `pages`, numeric
`categories`, inside a config whose shapes `validate` flags. -/
theorem claim_C10_witness :
    (ConfigParser._parseCategory
        (.obj [("name", .str "A"), ("pages", .str "boom")])).pages = [] ∧
    (ConfigParser.parse (.obj [("categories", .num 7)])).categories = [] ∧
    ("categories[0].pages: debe ser un array") ∈
      ConfigParser._validateCategory
        (.obj [("name", .str "A"), ("pages", .str "boom")]) "categories[0]" := by
  refine ⟨claim_C10.2.1 _ ?_, claim_C10.2.2.2.1 _ ?_, ?_⟩
  · decide
  · decide
  · exact claim_C10.2.2.2.2.1 _ "categories[0]" (by decide) (by decide) (by decide)

/-- C3 counterexample: for the page `{url: "u", visibleToPlayers: false,
visible: true}`, the claim says the migrated `visibleToPlayers` equals the
page's own `visibleToPlayers` (false) because that field is present; the
code's `page.visibleToPlayers || page.visible || false` yields true. -/
theorem claim_C3_counterexample :
    getField
        (ConfigParser._migratePage
          (.obj [("url", .str "u"), ("visibleToPlayers", .bool false),
                 ("visible", .bool true)]))
        "visibleToPlayers" = .bool true ∧
    getField
        (.obj [("url", .str "u"), ("visibleToPlayers", .bool false),
               ("visible", .bool true)])
        "visibleToPlayers" = .bool false := by
  constructor <;> rfl

/-- C3 (amended): a page migrates to `null` exactly when it is falsy or its
`url` is falsy; otherwise the migrated `visibleToPlayers` is the page's own
`visibleToPlayers` when that is truthy, else the legacy `visible` when that
is truthy (so a present-but-falsy `visibleToPlayers` is overridden by a
truthy `visible`), else `false`. -/
theorem claim_C3 (page : JSValue) :
    (ConfigParser._migratePage page = .null ↔
      ¬ (truthy page ∧ truthy (getField page "url"))) ∧
    (truthy page → truthy (getField page "url") →
      getField (ConfigParser._migratePage page) "visibleToPlayers" =
        (if truthy (getField page "visibleToPlayers") then
           getField page "visibleToPlayers"
         else if truthy (getField page "visible") then getField page "visible"
         else .bool false)) := by
  constructor
  · rw [ConfigParser._migratePage]
    split
    · rename_i h
      simp only [Bool.or_eq_true, Bool.not_eq_true'] at h
      simp
      rcases h with h | h <;> simp [h]
    · rename_i h
      simp only [Bool.or_eq_true, Bool.not_eq_true'] at h
      push_neg at h
      simp [h.1, h.2]
  · intro ht hu
    rw [ConfigParser._migratePage]
    simp only [ht, hu, Bool.not_true, Bool.or_self, Bool.false_eq_true,
      not_false_eq_true, if_neg, ite_false]
    show jsOr (jsOr _ _) _ = _
    by_cases h1 : truthy (getField page "visibleToPlayers") <;>
      by_cases h2 : truthy (getField page "visible") <;>
        simp [jsOr, h1, h2]

/-- C3 witness: legacy rename happens when `visibleToPlayers` is absent. -/
theorem claim_C3_witness :
    getField
        (ConfigParser._migratePage
          (.obj [("url", .str "u"), ("visible", .bool true)]))
        "visibleToPlayers" = .bool true := by
  have h := (claim_C3 (.obj [("url", .str "u"), ("visible", .bool true)])).2
    (by decide) (by decide)
  rw [h]
  rfl

/-- C1 counterexample: `migrate` maps `_migrateCategory` over the top-level
`categories` array without the `.filter(c => c)` used one level down, so a
`null` entry survives migration unchanged and `validate` rejects the result
(`categories[0]: categoría vacía`). -/
theorem claim_C1_counterexample :
    ConfigParser.migrate (.obj [("categories", .arr [.null] [])]) =
      .ok (.obj [("categories", .arr [.null] [])]) ∧
    (ConfigParser.validate (.obj [("categories", .arr [.null] [])])).valid = false := by
  constructor
  · simp [ConfigParser.migrate, truthy, getField, lookupKey, deepClone,
      cloneFields, cloneElems, ConfigParser.migrateCatList,
      ConfigParser._migrateCategory, setField, putKey, Bind.bind, Except.bind]
  · simp [ConfigParser.validate, truthy, getField, lookupKey,
      ConfigParser.validateCatList, ConfigParser._validateCategory]

/-- C2 counterexample: the claim's own example throws: a category whose
`pages` field is a truthy non-array makes `(category.pages || []).map(...)`
raise a `TypeError`, which `migrate` propagates to the caller. -/
theorem claim_C2_counterexample :
    ConfigParser.migrate
        (.obj [("categories",
          .arr [.obj [("name", .str "a"), ("pages", .str "boom")]] [])]) =
      .error "TypeError: category.pages.map is not a function" := by
  simp [ConfigParser.migrate, truthy, getField, lookupKey, deepClone,
    cloneFields, cloneElems, ConfigParser.migrateCatList,
    ConfigParser._migrateCategory, ConfigParser.migratePagesOf, isArray,
    setField, putKey, Bind.bind, Except.bind]

lemma countP_add_countP_not {α : Type} (p : α → Bool) (l : List α) :
    l.countP p + l.countP (fun a => !p a) = l.length := by
  induction l with
  | nil => simp
  | cons a t ih => by_cases h : p a <;> simp [List.countP_cons, h, ← ih] <;> omega

/-- `parseCatList` is the source's filter-then-map pipeline. -/
lemma parseCatList_eq_filter_map (cats : List JSValue) :
    ConfigParser.parseCatList cats =
      (cats.filter fun c => truthy c && truthy (getField c "name")).map
        ConfigParser._parseCategory := by
  induction cats with
  | nil => simp [ConfigParser.parseCatList]
  | cons c rest ih =>
      rw [ConfigParser.parseCatList]
      by_cases h : truthy c && truthy (getField c "name") <;>
        simp [h, ih]

/-- On a truthy input whose `categories` field is an array, `parse` returns
exactly the filter-map of that array. -/
lemma parse_categories_eq (json : JSValue) (cats : List JSValue)
    (props : List (String × JSValue)) (ht : truthy json)
    (hc : getField json "categories" = .arr cats props) :
    (ConfigParser.parse json).categories =
      (cats.filter fun c => truthy c && truthy (getField c "name")).map
        ConfigParser._parseCategory := by
  simp only [ConfigParser.parse, ht, Bool.not_true, Bool.false_eq_true,
    not_false_eq_true, ite_false, if_neg, ConfigParser.parseCaught,
    ConfigParser.parseInner, hc]
  rw [show jsOr (JSValue.arr cats props) (.arr [] []) = .arr cats props from rfl]
  rw [ConfigParser._parseCategories]
  exact parseCatList_eq_filter_map cats

/-- C7: on schema-shaped input (truthy, `categories` an array) the parsed
category sequence keeps every entry when all are truthy with truthy names,
and otherwise shrinks exactly by the number of dropped entries (falsy, or
falsy `name`), surviving entries in order; a category's parsed pages behave
the same way for entries lacking a truthy `name` or `url`. -/
theorem claim_C7 (json : JSValue) (cats : List JSValue)
    (props : List (String × JSValue)) (ht : truthy json)
    (hc : getField json "categories" = .arr cats props) :
    ((∀ c ∈ cats, truthy c ∧ truthy (getField c "name")) →
      (ConfigParser.parse json).categories.length = cats.length) ∧
    ((ConfigParser.parse json).categories.length =
      cats.length -
        cats.countP (fun c => !(truthy c && truthy (getField c "name")))) ∧
    ((ConfigParser.parse json).categories =
      (cats.filter fun c => truthy c && truthy (getField c "name")).map
        ConfigParser._parseCategory) ∧
    (∀ c ps pprops, getField c "pages" = .arr ps pprops →
      (ConfigParser._parseCategory c).pages =
        (ps.filter fun p =>
          truthy p && truthy (getField p "name") && truthy (getField p "url")).map
          ConfigParser._parsePage ∧
      (ConfigParser._parseCategory c).pages.length =
        ps.length -
          ps.countP (fun p =>
            !(truthy p && truthy (getField p "name") && truthy (getField p "url")))) := by
  have hmain := parse_categories_eq json cats props ht hc
  have hlen : (ConfigParser.parse json).categories.length =
      cats.countP (fun c => truthy c && truthy (getField c "name")) := by
    rw [hmain, List.length_map, ← List.countP_eq_length_filter]
  refine ⟨?_, ?_, hmain, ?_⟩
  · intro hall
    rw [hlen]
    rw [List.countP_eq_length]
    · intro c hcm
      simp [(hall c hcm).1, (hall c hcm).2]
  · rw [hlen]
    have := countP_add_countP_not
      (fun c => truthy c && truthy (getField c "name")) cats
    omega
  · intro c ps pprops hp
    have hpages : (ConfigParser._parseCategory c).pages =
        (ps.filter fun p =>
          truthy p && truthy (getField p "name") && truthy (getField p "url")).map
          ConfigParser._parsePage := by
      rw [ConfigParser._parseCategory]
      simp only [Category.pages, hp]
      rw [show jsOr (JSValue.arr ps pprops) (.arr [] []) = .arr ps pprops from rfl]
      rw [ConfigParser._parsePages]
    refine ⟨hpages, ?_⟩
    rw [hpages, List.length_map, ← List.countP_eq_length_filter]
    have := countP_add_countP_not
      (fun p => truthy p && truthy (getField p "name") && truthy (getField p "url")) ps
    omega

/-- C7 witness: a config with one kept and one nameless (dropped) category,
whose kept category drops the url-less page. -/
theorem claim_C7_witness :
    (ConfigParser.parse
        (.obj [("categories",
          .arr [.obj [("name", .str "A"),
                      ("pages", .arr [.obj [("name", .str "p"), ("url", .str "u")],
                                      .obj [("name", .str "q")]] [])],
                .obj [("pages", .arr [] [])]] [])])).categories.length = 1 ∧
    (ConfigParser._parseCategory
        (.obj [("name", .str "A"),
               ("pages", .arr [.obj [("name", .str "p"), ("url", .str "u")],
                               .obj [("name", .str "q")]] [])])).pages.length = 1 := by
  have h := claim_C7
    (.obj [("categories",
      .arr [.obj [("name", .str "A"),
                  ("pages", .arr [.obj [("name", .str "p"), ("url", .str "u")],
                                  .obj [("name", .str "q")]] [])],
            .obj [("pages", .arr [] [])]] [])])
    [.obj [("name", .str "A"),
           ("pages", .arr [.obj [("name", .str "p"), ("url", .str "u")],
                           .obj [("name", .str "q")]] [])],
     .obj [("pages", .arr [] [])]]
    [] (by decide) rfl
  constructor
  · rw [h.2.1]
    decide
  · exact (h.2.2.2
      (.obj [("name", .str "A"),
             ("pages", .arr [.obj [("name", .str "p"), ("url", .str "u")],
                             .obj [("name", .str "q")]] [])])
      [.obj [("name", .str "p"), ("url", .str "u")], .obj [("name", .str "q")]]
      [] rfl).2.trans (by decide)

/-- The `forEach` loop over categories splits over list append: errors from
earlier categories never suppress later ones. -/
lemma validateCatList_append (l1 l2 : List JSValue) (pre : String) (i : Nat) :
    ConfigParser.validateCatList (l1 ++ l2) pre i =
      ConfigParser.validateCatList l1 pre i ++
        ConfigParser.validateCatList l2 pre (i + l1.length) := by
  induction l1 generalizing i with
  | nil => simp [ConfigParser.validateCatList]
  | cons c rest ih =>
      rw [List.cons_append, ConfigParser.validateCatList, ih (i + 1)]
      conv_rhs => rw [ConfigParser.validateCatList]
      simp [List.append_assoc, Nat.add_assoc, Nat.add_comm 1 rest.length]

/-- Same for the `forEach` loop over pages. -/
lemma validatePageList_append (l1 l2 : List JSValue) (pre : String) (i : Nat) :
    ConfigParser.validatePageList (l1 ++ l2) pre i =
      ConfigParser.validatePageList l1 pre i ++
        ConfigParser.validatePageList l2 pre (i + l1.length) := by
  induction l1 generalizing i with
  | nil => simp [ConfigParser.validatePageList]
  | cons p rest ih =>
      rw [List.cons_append, ConfigParser.validatePageList, ih (i + 1)]
      conv_rhs => rw [ConfigParser.validatePageList]
      simp [List.append_assoc, Nat.add_assoc, Nat.add_comm 1 rest.length]

/-- On a truthy config whose `categories` is an array, `validate` returns
the concatenated per-category error lists and is valid iff they are empty. -/
lemma validate_errors_eq (json : JSValue) (cats : List JSValue)
    (props : List (String × JSValue)) (ht : truthy json)
    (hc : getField json "categories" = .arr cats props) :
    (ConfigParser.validate json).errors =
      ConfigParser.validateCatList cats "categories" 0 ∧
    (ConfigParser.validate json).valid =
      (ConfigParser.validateCatList cats "categories" 0).isEmpty := by
  rw [ConfigParser.validate, hc, ht]
  simp [truthy]

/-- C6: `validate` reports every problem found: the error list is the
concatenation of each category's path-qualified errors in order, the
category loop distributes over appends (errors in one category never
suppress errors in later or deeper ones), and a truthy page at index `j` of
a truthy category at index `i` that lacks a string `name` always contributes
`categories[i].pages[j]: falta nombre o no es string` and forces
`valid = false`. -/
theorem claim_C6 (json : JSValue) (cats : List JSValue)
    (props : List (String × JSValue)) (ht : truthy json)
    (hc : getField json "categories" = .arr cats props) :
    ((ConfigParser.validate json).errors =
      ConfigParser.validateCatList cats "categories" 0) ∧
    (∀ l1 l2 pre i,
      ConfigParser.validateCatList (l1 ++ l2) pre i =
        ConfigParser.validateCatList l1 pre i ++
          ConfigParser.validateCatList l2 pre (i + l1.length)) ∧
    (∀ l1 c l2 q1 p q2 pprops,
      cats = l1 ++ c :: l2 →
      truthy c →
      getField c "pages" = .arr (q1 ++ p :: q2) pprops →
      truthy p →
      (¬ truthy (getField p "name") ∨ ¬ isString (getField p "name")) →
      ("categories[" ++ toString l1.length ++ "].pages[" ++ toString q1.length
          ++ "]: falta nombre o no es string") ∈ (ConfigParser.validate json).errors ∧
        (ConfigParser.validate json).valid = false) := by
  obtain ⟨herr, hval⟩ := validate_errors_eq json cats props ht hc
  refine ⟨herr, validateCatList_append, ?_⟩
  intro l1 c l2 q1 p q2 pprops hcats htc hpages htp hname
  set msg := "categories[" ++ toString l1.length ++ "].pages[" ++ toString q1.length
      ++ "]: falta nombre o no es string" with hmsg
  have hmem : msg ∈ ConfigParser.validateCatList cats "categories" 0 := by
    rw [hcats, validateCatList_append]
    apply List.mem_append_right
    rw [ConfigParser.validateCatList]
    apply List.mem_append_left
    rw [ConfigParser._validateCategory]
    simp only [htc, Bool.not_true, Bool.false_eq_true, not_false_eq_true,
      ite_false, if_neg, hpages]
    apply List.mem_append_left
    apply List.mem_append_right
    rw [validatePageList_append]
    apply List.mem_append_right
    rw [ConfigParser.validatePageList]
    apply List.mem_append_left
    rw [ConfigParser._validatePage]
    simp only [htp, Bool.not_true, Bool.false_eq_true, not_false_eq_true,
      ite_false, if_neg]
    apply List.mem_append_left
    apply List.mem_append_left
    have hcond : (!truthy (getField p "name") || !isString (getField p "name")) = true := by
      rcases hname with h | h <;> simp [h]
    rw [if_pos hcond]
    simp only [List.mem_singleton, hmsg]
    simp [String.append_assoc]
  refine ⟨herr ▸ hmem, ?_⟩
  rw [hval]
  have := List.ne_nil_of_mem hmem
  simp [List.isEmpty_iff, this]

/-- C6 witness: a page missing `name` at `categories[1].pages[1]`. -/
theorem claim_C6_witness :
    ("categories[1].pages[1]: falta nombre o no es string") ∈
      (ConfigParser.validate
        (.obj [("categories",
          .arr [.obj [("name", .str "A")],
                .obj [("name", .str "B"),
                      ("pages", .arr [.obj [("name", .str "p"), ("url", .str "u")],
                                      .obj [("url", .str "u2")]] [])]] [])])).errors := by
  have h := (claim_C6
    (.obj [("categories",
      .arr [.obj [("name", .str "A")],
            .obj [("name", .str "B"),
                  ("pages", .arr [.obj [("name", .str "p"), ("url", .str "u")],
                                  .obj [("url", .str "u2")]] [])]] [])])
    [.obj [("name", .str "A")],
     .obj [("name", .str "B"),
           ("pages", .arr [.obj [("name", .str "p"), ("url", .str "u")],
                           .obj [("url", .str "u2")]] [])]]
    [] (by decide) rfl).2.2
    [.obj [("name", .str "A")]]
    (.obj [("name", .str "B"),
           ("pages", .arr [.obj [("name", .str "p"), ("url", .str "u")],
                           .obj [("url", .str "u2")]] [])])
    [] [.obj [("name", .str "p"), ("url", .str "u")]]
    (.obj [("url", .str "u2")]) [] []
    rfl (by decide) rfl (by decide) (Or.inl (by decide))
  exact h.1

/-- Whether an `Except` computation returned rather than threw. -/
def isOk {ε α : Type} : Except ε α → Bool
  | .ok _ => true
  | .error _ => false

/-- Whether a strict-mode property write on `v` succeeds (`setField`). -/
def canSetProp : JSValue → Bool
  | .obj _ => true
  | .arr _ _ => true
  | _ => false

/- The exact condition under which the migration traversal returns rather
than throwing: every traversed category is falsy (migrated to `null`) or has
`pages` and `categories` fields that are arrays or falsy. -/
mutual
def migrateCatOk (category : JSValue) : Bool :=
  !truthy category ||
    ((match getField category "pages" with
      | .arr _ _ => true
      | v => !truthy v)
     && migrateCatsFieldOk (getField category "categories"))
termination_by (2 * sizeOf category + 1, 0)
decreasing_by
  have := getField_sizeOf_le category "categories"
  omega

def migrateCatsFieldOk (v : JSValue) : Bool :=
  match v with
  | .arr elems _ => migrateCatListOk elems
  | w => !truthy w
termination_by (2 * sizeOf v, 1)

def migrateCatListOk : List JSValue → Bool
  | [] => true
  | c :: rest => migrateCatOk c && migrateCatListOk rest
termination_by cats => (2 * sizeOf cats + 1, 0)
end

/-- The condition under which `migrate` returns on the truthy path, stated
of the deep clone it operates on: the top level must accept a property
write when `categories` needs defaulting, `categories` must be an array or
falsy, and every category must satisfy `migrateCatOk`. -/
def migrateTopOk (v : JSValue) : Bool :=
  match getField v "categories" with
  | .arr elems _ => migrateCatListOk elems
  | w => !truthy w && canSetProp v

/-- An element of an array sitting in a field of `c` is smaller than `c`. -/
lemma sizeOf_mem_field_lt (c e : JSValue) (key : String)
    (elems : List JSValue) (props : List (String × JSValue))
    (h : getField c key = .arr elems props) (hm : e ∈ elems) :
    sizeOf e < sizeOf c := by
  have h1 := List.sizeOf_lt_of_mem hm
  have h2 := getField_sizeOf_le c key
  rw [h] at h2
  simp at h2
  omega

lemma migrateCatList_isOk (l : List JSValue)
    (IH : ∀ c ∈ l, isOk (ConfigParser._migrateCategory c) = migrateCatOk c) :
    isOk (ConfigParser.migrateCatList l) = migrateCatListOk l := by
  induction l with
  | nil => simp [ConfigParser.migrateCatList, migrateCatListOk, isOk]
  | cons c rest ih =>
      rw [ConfigParser.migrateCatList, migrateCatListOk]
      have hc := IH c (List.mem_cons_self c rest)
      have hrest := ih (fun d hd => IH d (List.mem_cons_of_mem c hd))
      cases hm : ConfigParser._migrateCategory c with
      | error e =>
          rw [hm] at hc
          simp only [isOk] at hc
          simp [Bind.bind, Except.bind, isOk, ← hc]
      | ok m =>
          rw [hm] at hc
          simp only [isOk] at hc
          cases hl : ConfigParser.migrateCatList rest with
          | error e =>
              rw [hl] at hrest
              simp only [isOk] at hrest
              simp [Bind.bind, Except.bind, isOk, ← hc, ← hrest]
          | ok ms =>
              rw [hl] at hrest
              simp only [isOk] at hrest
              simp [Bind.bind, Except.bind, isOk, ← hc, ← hrest]

lemma migratePagesOf_isOk (v : JSValue) :
    isOk (ConfigParser.migratePagesOf v) =
      (match v with
       | JSValue.arr _ _ => true
       | w => !truthy w) := by
  cases v with
  | arr elems props => simp [ConfigParser.migratePagesOf, isOk]
  | undefined => simp [ConfigParser.migratePagesOf, truthy, isOk]
  | null => simp [ConfigParser.migratePagesOf, truthy, isOk]
  | bool b => cases b <;> simp [ConfigParser.migratePagesOf, truthy, isOk]
  | num m =>
      by_cases hm : m = 0 <;> simp [ConfigParser.migratePagesOf, truthy, hm, isOk]
  | str s =>
      by_cases hs : s = "" <;> simp [ConfigParser.migratePagesOf, truthy, hs, isOk]
  | obj fields => simp [ConfigParser.migratePagesOf, truthy, isOk]

lemma migrateCategoriesOf_isOk (v : JSValue)
    (IH : ∀ elems props, v = .arr elems props →
      ∀ c ∈ elems, isOk (ConfigParser._migrateCategory c) = migrateCatOk c) :
    isOk (ConfigParser.migrateCategoriesOf v) = migrateCatsFieldOk v := by
  cases v with
  | arr elems props =>
      have hlist := migrateCatList_isOk elems (IH elems props rfl)
      simp only [ConfigParser.migrateCategoriesOf, migrateCatsFieldOk]
      cases hl : ConfigParser.migrateCatList elems with
      | error e =>
          rw [hl] at hlist
          simp only [isOk] at hlist
          simp [Bind.bind, Except.bind, isOk, ← hlist]
      | ok ms =>
          rw [hl] at hlist
          simp only [isOk] at hlist
          simp [Bind.bind, Except.bind, isOk, ← hlist]
  | undefined => simp [ConfigParser.migrateCategoriesOf, migrateCatsFieldOk, truthy, isOk]
  | null => simp [ConfigParser.migrateCategoriesOf, migrateCatsFieldOk, truthy, isOk]
  | bool b =>
      cases b <;>
        simp [ConfigParser.migrateCategoriesOf, migrateCatsFieldOk, truthy, isOk]
  | num m =>
      by_cases hm : m = 0 <;>
        simp [ConfigParser.migrateCategoriesOf, migrateCatsFieldOk, truthy, hm, isOk]
  | str s =>
      by_cases hs : s = "" <;>
        simp [ConfigParser.migrateCategoriesOf, migrateCatsFieldOk, truthy, hs, isOk]
  | obj fields =>
      simp [ConfigParser.migrateCategoriesOf, migrateCatsFieldOk, truthy, isOk]

lemma migrateCategory_isOk (c : JSValue) :
    isOk (ConfigParser._migrateCategory c) = migrateCatOk c := by
  have main : ∀ (n : Nat) (c : JSValue), sizeOf c < n →
      isOk (ConfigParser._migrateCategory c) = migrateCatOk c := by
    intro n
    induction n with
    | zero => intro c h; omega
    | succ n ih =>
        intro c hlt
        rw [ConfigParser._migrateCategory, migrateCatOk]
        by_cases ht : truthy c
        · simp only [ht, Bool.not_true, Bool.false_eq_true, not_false_eq_true,
            ite_false, if_neg, Bool.false_or]
          rw [show (match getField c "pages" with
                | JSValue.arr _ _ => true
                | v => !truthy v) = isOk (ConfigParser.migratePagesOf (getField c "pages"))
              from (migratePagesOf_isOk _).symm]
          rw [show migrateCatsFieldOk (getField c "categories") =
                isOk (ConfigParser.migrateCategoriesOf (getField c "categories"))
              from (migrateCategoriesOf_isOk _ (fun elems props he d hd => by
                have := sizeOf_mem_field_lt c d "categories" elems props he hd
                exact ih d (by omega))).symm]
          cases hp : ConfigParser.migratePagesOf (getField c "pages") with
          | error e => simp [Bind.bind, Except.bind, isOk]
          | ok pages =>
              cases hcf : ConfigParser.migrateCategoriesOf (getField c "categories") with
              | error e => simp [Bind.bind, Except.bind, isOk]
              | ok subcats =>
                  simp only [Bind.bind, Except.bind]
                  split
                  · simp [isOk]
                  · simp [setField, isOk]
        · simp [ht, isOk]
  exact main (sizeOf c + 1) c (by omega)

lemma lookupKey_putKey {α : Type} (l : List (String × α)) (k : String) (v : α) :
    lookupKey (putKey l k v) k = some v := by
  induction l with
  | nil => simp [putKey, lookupKey]
  | cons kw rest ih =>
      obtain ⟨k', w⟩ := kw
      by_cases hk : k' = k <;> simp [putKey, lookupKey, hk, ih]

lemma setField_isOk (v : JSValue) (key : String) (w : JSValue) :
    isOk (setField v key w) = canSetProp v := by
  cases v <;> simp [setField, canSetProp, isOk]

lemma setField_ok_canSet (v v' : JSValue) (key : String) (w : JSValue)
    (h : setField v key w = .ok v') : canSetProp v' = true := by
  cases v <;> simp [setField] at h <;> simp [← h, canSetProp]

lemma getField_setField (v v' : JSValue) (key : String) (w : JSValue)
    (h : setField v key w = .ok v') : getField v' key = w := by
  cases v <;> simp [setField] at h <;>
    simp [← h, getField, lookupKey_putKey]

lemma getField_arr_canSetProp (v : JSValue) (key : String)
    (elems : List JSValue) (props : List (String × JSValue))
    (h : getField v key = .arr elems props) : canSetProp v = true := by
  cases v <;> simp [getField] at h <;> simp [canSetProp]

/-- C2 (amended): `parse` and `validate` return a value on every input
(their bodies contain no throwing operation: in this embedding they are
total functions); `migrate` throws, and it returns a value exactly when the
deep clone it operates on has a falsy top level, or a top level accepting
property writes whose `categories` field — and, recursively, every truthy
category's `pages`/`categories` fields — is an array or falsy. -/
theorem claim_C2 (json : JSValue) :
    isOk (ConfigParser.migrate json) =
      (!truthy json || migrateTopOk (deepClone json)) := by
  by_cases ht : truthy json
  · rw [ConfigParser.migrate]
    simp only [ht, Bool.not_true, Bool.false_eq_true, not_false_eq_true,
      ite_false, if_neg, Bool.false_or]
    generalize deepClone json = v
    rw [migrateTopOk]
    cases hgf : getField v "categories" with
    | arr elems props =>
        have hcan := getField_arr_canSetProp v "categories" elems props hgf
        have hlist := migrateCatList_isOk elems (fun d _ => migrateCategory_isOk d)
        simp only [hgf, truthy, Bool.not_true, Bool.false_eq_true,
          not_false_eq_true, ite_false, if_neg, Bind.bind, Except.bind]
        cases hl : ConfigParser.migrateCatList elems with
        | error e =>
            rw [hl] at hlist
            simp only [isOk] at hlist
            simp [isOk, ← hlist]
        | ok ms =>
            rw [hl] at hlist
            simp only [isOk] at hlist
            rw [setField_isOk, hcan, ← hlist]
    | undefined =>
        simp only [hgf, truthy, Bool.not_false, Bool.not_true, ite_true, if_pos,
          Bind.bind, Except.bind]
        cases hs : setField v "categories" (.arr [] []) with
        | error e =>
            have : canSetProp v = false := by
              have := setField_isOk v "categories" (.arr [] [])
              rw [hs] at this
              simp [isOk] at this
              exact this
            simp [isOk, this]
        | ok v' =>
            have hget := getField_setField v v' "categories" (.arr [] []) hs
            have hcan' := setField_ok_canSet v v' "categories" (.arr [] []) hs
            have hcanv : canSetProp v = true := by
              have := setField_isOk v "categories" (.arr [] [])
              rw [hs] at this
              simp [isOk] at this
              exact this
            simp only [hget, ConfigParser.migrateCatList, Bind.bind, Except.bind]
            simp [setField_isOk, hcan', hcanv]
    | null =>
        simp only [hgf, truthy, Bool.not_false, Bool.not_true, ite_true, if_pos,
          Bind.bind, Except.bind]
        cases hs : setField v "categories" (.arr [] []) with
        | error e =>
            have : canSetProp v = false := by
              have := setField_isOk v "categories" (.arr [] [])
              rw [hs] at this
              simp [isOk] at this
              exact this
            simp [isOk, this]
        | ok v' =>
            have hget := getField_setField v v' "categories" (.arr [] []) hs
            have hcan' := setField_ok_canSet v v' "categories" (.arr [] []) hs
            have hcanv : canSetProp v = true := by
              have := setField_isOk v "categories" (.arr [] [])
              rw [hs] at this
              simp [isOk] at this
              exact this
            simp only [hget, ConfigParser.migrateCatList, Bind.bind, Except.bind]
            simp [setField_isOk, hcan', hcanv]
    | bool b =>
        cases b with
        | true =>
            simp only [hgf, truthy, Bool.not_true, Bool.false_eq_true,
              not_false_eq_true, ite_false, if_neg, Bind.bind, Except.bind]
            simp [isOk]
        | false =>
            simp only [hgf, truthy, Bool.not_false, ite_true, if_pos,
              Bind.bind, Except.bind]
            cases hs : setField v "categories" (.arr [] []) with
            | error e =>
                have : canSetProp v = false := by
                  have := setField_isOk v "categories" (.arr [] [])
                  rw [hs] at this
                  simp [isOk] at this
                  exact this
                simp [isOk, this]
            | ok v' =>
                have hget := getField_setField v v' "categories" (.arr [] []) hs
                have hcan' := setField_ok_canSet v v' "categories" (.arr [] []) hs
                have hcanv : canSetProp v = true := by
                  have := setField_isOk v "categories" (.arr [] [])
                  rw [hs] at this
                  simp [isOk] at this
                  exact this
                simp only [hget, ConfigParser.migrateCatList, Bind.bind, Except.bind]
                simp [setField_isOk, hcan', hcanv]
    | num m =>
        by_cases hm : m = 0
        · subst hm
          simp only [hgf, truthy, Bind.bind, Except.bind]
          norm_num
          cases hs : setField v "categories" (.arr [] []) with
          | error e =>
              have : canSetProp v = false := by
                have := setField_isOk v "categories" (.arr [] [])
                rw [hs] at this
                simp [isOk] at this
                exact this
              simp [isOk, this]
          | ok v' =>
              have hget := getField_setField v v' "categories" (.arr [] []) hs
              have hcan' := setField_ok_canSet v v' "categories" (.arr [] []) hs
              have hcanv : canSetProp v = true := by
                have := setField_isOk v "categories" (.arr [] [])
                rw [hs] at this
                simp [isOk] at this
                exact this
              simp only [hget, ConfigParser.migrateCatList, Bind.bind, Except.bind]
              simp [setField_isOk, hcan', hcanv]
        · simp only [hgf, truthy, Bind.bind, Except.bind]
          simp [hm, isOk]
    | str s =>
        by_cases hs0 : s = ""
        · subst hs0
          simp only [hgf, truthy, Bind.bind, Except.bind]
          norm_num
          cases hs : setField v "categories" (.arr [] []) with
          | error e =>
              have : canSetProp v = false := by
                have := setField_isOk v "categories" (.arr [] [])
                rw [hs] at this
                simp [isOk] at this
                exact this
              simp [isOk, this]
          | ok v' =>
              have hget := getField_setField v v' "categories" (.arr [] []) hs
              have hcan' := setField_ok_canSet v v' "categories" (.arr [] []) hs
              have hcanv : canSetProp v = true := by
                have := setField_isOk v "categories" (.arr [] [])
                rw [hs] at this
                simp [isOk] at this
                exact this
              simp only [hget, ConfigParser.migrateCatList, Bind.bind, Except.bind]
              simp [setField_isOk, hcan', hcanv]
        · simp only [hgf, truthy, Bind.bind, Except.bind]
          simp [hs0, isOk]
    | obj fields =>
        simp only [hgf, truthy, Bool.not_true, Bool.false_eq_true,
          not_false_eq_true, ite_false, if_neg, Bind.bind, Except.bind]
        simp [isOk]
  · simp [ConfigParser.migrate, ht, isOk]

lemma lookupKey_eq_none_iff {α : Type} (l : List (String × α)) (key : String) :
    lookupKey l key = none ↔ ∀ p ∈ l, p.1 ≠ key := by
  induction l with
  | nil => simp [lookupKey]
  | cons kw rest ih =>
      obtain ⟨k, w⟩ := kw
      by_cases hk : k = key <;> simp [lookupKey, hk, ih]

lemma putKey_of_lookup_none {α : Type} (l : List (String × α)) (key : String)
    (v : α) (h : lookupKey l key = none) : putKey l key v = l ++ [(key, v)] := by
  induction l with
  | nil => simp [putKey]
  | cons kw rest ih =>
      obtain ⟨k, w⟩ := kw
      by_cases hk : k = key
      · simp [lookupKey, hk] at h
      · simp [lookupKey, hk] at h
        simp [putKey, hk, ih h]

lemma putKey_length_le {α : Type} (l : List (String × α)) (key : String) (v : α) :
    (putKey l key v).length ≤ l.length + 1 := by
  induction l with
  | nil => simp [putKey]
  | cons kw rest ih =>
      obtain ⟨k, w⟩ := kw
      by_cases hk : k = key <;> simp [putKey, hk] <;> omega

/-- Folding saves over fresh, pairwise-distinct keys keeps a sliding window:
the cache ends as the suffix of the written sequence that fits in 20. -/
lemma saveHtml_fold_window :
    ∀ (keys : List (String × String)) (s : CacheService),
      (keys.map Prod.fst).Nodup →
      (∀ kv ∈ keys, lookupKey s.localHtmlCache kv.1 = none) →
      s.localHtmlCache.length ≤ 20 →
      (keys.foldl (fun t kv => CacheService.saveHtmlToLocalCache t kv.1 kv.2)
          s).localHtmlCache =
        (s.localHtmlCache ++ keys).drop (s.localHtmlCache.length + keys.length - 20) := by
  intro keys
  induction keys with
  | nil =>
      intro s _ _ hlen
      simp only [List.foldl_nil, List.length_nil, List.append_nil, Nat.add_zero]
      rw [Nat.sub_eq_zero_of_le hlen, List.drop_zero]
  | cons kv rest ih =>
      intro s hnd hfresh hlen
      obtain ⟨k, h⟩ := kv
      have hk0 : lookupKey s.localHtmlCache k = none :=
        hfresh (k, h) (List.mem_cons_self _ _)
      have hput : putKey s.localHtmlCache k h = s.localHtmlCache ++ [(k, h)] :=
        putKey_of_lookup_none _ _ _ hk0
      rw [List.foldl_cons]
      rw [List.map_cons, List.nodup_cons] at hnd
      have hnd' : (rest.map Prod.fst).Nodup := hnd.2
      have hknotin : ∀ kv ∈ rest, kv.1 ≠ k := by
        intro kv hm hEq
        apply hnd.1
        rw [← hEq]
        exact List.mem_map.mpr ⟨kv, hm, rfl⟩
      by_cases hfull : s.localHtmlCache.length = 20
      · have hsave : (CacheService.saveHtmlToLocalCache s k h).localHtmlCache =
            (s.localHtmlCache ++ [(k, h)]).tail := by
          rw [CacheService.saveHtmlToLocalCache]
          simp only [hput]
          rw [if_pos]
          simp [hfull, CacheService.HTML_CACHE_LIMIT]
        have hfresh' : ∀ kv ∈ rest,
            lookupKey (CacheService.saveHtmlToLocalCache s k h).localHtmlCache kv.1 = none := by
          intro kv hm
          rw [hsave, lookupKey_eq_none_iff]
          intro p hp
          have hp' : p ∈ s.localHtmlCache ++ [(k, h)] := List.mem_of_mem_tail hp
          rcases List.mem_append.mp hp' with hp1 | hp2
          · exact (lookupKey_eq_none_iff _ _).mp
              (hfresh kv (List.mem_cons_of_mem _ hm)) p hp1
          · simp only [List.mem_singleton] at hp2
            rw [hp2]
            exact fun hEq => hknotin kv hm hEq.symm
        have hlen' : (CacheService.saveHtmlToLocalCache s k h).localHtmlCache.length ≤ 20 := by
          rw [hsave]
          simp [hfull]
        have := ih (CacheService.saveHtmlToLocalCache s k h) hnd' hfresh' hlen'
        rw [this, hsave]
        have hlen1 : (s.localHtmlCache ++ [(k, h)]).tail.length = 20 := by
          simp [hfull]
        rw [hlen1, ← List.drop_one,
          ← List.drop_append_of_le_length
            (by simp : 1 ≤ (s.localHtmlCache ++ [(k, h)]).length),
          List.drop_drop,
          show s.localHtmlCache ++ (k, h) :: rest =
            (s.localHtmlCache ++ [(k, h)]) ++ rest by simp]
        congr 1
        simp [hfull] <;> omega
      · have hsave : (CacheService.saveHtmlToLocalCache s k h).localHtmlCache =
            s.localHtmlCache ++ [(k, h)] := by
          rw [CacheService.saveHtmlToLocalCache]
          simp only [hput]
          rw [if_neg]
          simp [CacheService.HTML_CACHE_LIMIT]
          omega
        have hfresh' : ∀ kv ∈ rest,
            lookupKey (CacheService.saveHtmlToLocalCache s k h).localHtmlCache kv.1 = none := by
          intro kv hm
          rw [hsave, lookupKey_eq_none_iff]
          intro p hp
          rcases List.mem_append.mp hp with hp1 | hp2
          · exact (lookupKey_eq_none_iff _ _).mp
              (hfresh kv (List.mem_cons_of_mem _ hm)) p hp1
          · simp only [List.mem_singleton] at hp2
            rw [hp2]
            exact fun hEq => hknotin kv hm hEq.symm
        have hlen' : (CacheService.saveHtmlToLocalCache s k h).localHtmlCache.length ≤ 20 := by
          rw [hsave]
          simp
          omega
        have := ih (CacheService.saveHtmlToLocalCache s k h) hnd' hfresh' hlen'
        rw [this, hsave]
        simp
        congr 1
        omega

/-- C8: after any sequence of `saveHtmlToLocalCache` calls from a fresh
service the rendered-HTML tier holds at most 20 entries, and saving 21
pairwise-distinct keys leaves exactly the last 20 in insertion order — the
first-inserted key is the one evicted (FIFO; `getHtmlFromLocalCache` is a
pure read and cannot refresh positions). -/
theorem claim_C8 :
    (∀ ops : List (String × String),
      ((ops.foldl (fun s kv => CacheService.saveHtmlToLocalCache s kv.1 kv.2)
          {}).localHtmlCache).length ≤ 20) ∧
    (∀ keys : List (String × String),
      (keys.map Prod.fst).Nodup → keys.length = 21 →
      (keys.foldl (fun s kv => CacheService.saveHtmlToLocalCache s kv.1 kv.2)
          {}).localHtmlCache = keys.drop 1) := by
  constructor
  · intro ops
    have main : ∀ (ops : List (String × String)) (s : CacheService),
        s.localHtmlCache.length ≤ 20 →
        ((ops.foldl (fun t kv => CacheService.saveHtmlToLocalCache t kv.1 kv.2)
            s).localHtmlCache).length ≤ 20 := by
      intro ops
      induction ops with
      | nil => intro s h; simpa using h
      | cons kv rest ih =>
          intro s hlen
          rw [List.foldl_cons]
          apply ih
          simp only [CacheService.saveHtmlToLocalCache, CacheService.HTML_CACHE_LIMIT]
          have hle := putKey_length_le s.localHtmlCache kv.1 kv.2
          split
          · simp only [List.length_tail]
            omega
          · rename_i hcond
            omega
    exact main ops {} (by simp)
  · intro keys hnd hlen
    have := saveHtml_fold_window keys {} hnd (by simp [lookupKey]) (by simp)
    simpa [hlen] using this

/-- C8 witness: 21 distinct keys leave the last 20, first key evicted. -/
theorem claim_C8_witness :
    (([("a", "0"), ("b", "1"), ("c", "2"), ("d", "3"), ("e", "4"), ("f", "5"),
       ("g", "6"), ("h", "7"), ("i", "8"), ("j", "9"), ("k", "10"), ("l", "11"),
       ("m", "12"), ("n", "13"), ("o", "14"), ("p", "15"), ("q", "16"),
       ("r", "17"), ("s", "18"), ("t", "19"), ("u", "20")].foldl
        (fun s kv => CacheService.saveHtmlToLocalCache s kv.1 kv.2)
        {}).localHtmlCache) =
      [("b", "1"), ("c", "2"), ("d", "3"), ("e", "4"), ("f", "5"),
       ("g", "6"), ("h", "7"), ("i", "8"), ("j", "9"), ("k", "10"), ("l", "11"),
       ("m", "12"), ("n", "13"), ("o", "14"), ("p", "15"), ("q", "16"),
       ("r", "17"), ("s", "18"), ("t", "19"), ("u", "20")] := by
  rw [claim_C8.2 _ (by decide) (by decide)]
  rfl

/-- C9: `clearLocalCache` empties only the in-memory rendered-HTML tier:
every subsequent HTML read is `null`, while the persisted blocks and
page-info tiers (and their reads) are exactly as before the call. -/
theorem claim_C9 (s : CacheService) (pageId : String) :
    CacheService.getHtmlFromLocalCache (CacheService.clearLocalCache s) pageId = none ∧
    (CacheService.clearLocalCache s).blocksCache = s.blocksCache ∧
    (CacheService.clearLocalCache s).pageInfoCache = s.pageInfoCache ∧
    CacheService.getCachedBlocks (CacheService.clearLocalCache s) pageId =
      CacheService.getCachedBlocks s pageId ∧
    CacheService.getCachedPageInfo (CacheService.clearLocalCache s) pageId =
      CacheService.getCachedPageInfo s pageId :=
  ⟨rfl, rfl, rfl, rfl, rfl⟩

/-- The migration-side input condition under which migrated pages satisfy
the page validation rules: a kept page's `url` must be a string, and its
`name`/`blockTypes`, when truthy, a string resp. an array. -/
def goodPage (p : JSValue) : Bool :=
  !truthy p || !truthy (getField p "url") ||
    (isString (getField p "url")
     && (!truthy (getField p "name") || isString (getField p "name"))
     && (!truthy (getField p "blockTypes") || isArray (getField p "blockTypes")))

/- The recursive input condition: every truthy category has a
string-or-falsy `name`, good pages, and recursively good subcategories. -/
mutual
def goodCat (c : JSValue) : Bool :=
  !truthy c ||
    ((!truthy (getField c "name") || isString (getField c "name"))
     && (match getField c "pages" with
         | .arr ps _ => ps.all goodPage
         | _ => true)
     && goodCatsField (getField c "categories"))
termination_by (2 * sizeOf c + 1, 0)
decreasing_by
  have := getField_sizeOf_le c "categories"
  omega

def goodCatsField (v : JSValue) : Bool :=
  match v with
  | .arr cs _ => goodCatList cs
  | _ => true
termination_by (2 * sizeOf v, 1)

def goodCatList : List JSValue → Bool
  | [] => true
  | c :: rest => goodCat c && goodCatList rest
termination_by l => (2 * sizeOf l + 1, 0)
end

/-- The input condition for C1: the (cloned) top level is falsy, or its
`categories` entries are all truthy and recursively good. -/
def goodConfig (v : JSValue) : Bool :=
  !truthy v ||
    (match getField v "categories" with
     | .arr cats _ => cats.all truthy && goodCatList cats
     | _ => true)

lemma truthy_deepClone (v : JSValue) : truthy (deepClone v) = truthy v := by
  cases v <;> simp [deepClone, truthy]

lemma canSetProp_truthy (v : JSValue) (h : canSetProp v = true) :
    truthy v = true := by
  cases v <;> simp_all [canSetProp, truthy]

lemma goodCatList_mem (l : List JSValue) (h : goodCatList l = true) :
    ∀ c ∈ l, goodCat c = true := by
  induction l with
  | nil => simp
  | cons c rest ih =>
      rw [goodCatList] at h
      simp only [Bool.and_eq_true] at h
      intro d hd
      rcases List.mem_cons.mp hd with hd | hd
      · rw [hd]; exact h.1
      · exact ih h.2 d hd

lemma migrateCatList_ok_mem (l ms : List JSValue)
    (h : ConfigParser.migrateCatList l = .ok ms) :
    ∀ m ∈ ms, ∃ c ∈ l, ConfigParser._migrateCategory c = .ok m := by
  induction l generalizing ms with
  | nil =>
      rw [ConfigParser.migrateCatList] at h
      simp at h
      subst h
      simp
  | cons c rest ih =>
      rw [ConfigParser.migrateCatList] at h
      cases hc : ConfigParser._migrateCategory c with
      | error e => rw [hc] at h; simp [Bind.bind, Except.bind] at h
      | ok m0 =>
          rw [hc] at h
          cases hl : ConfigParser.migrateCatList rest with
          | error e => rw [hl] at h; simp [Bind.bind, Except.bind] at h
          | ok ms0 =>
              rw [hl] at h
              simp [Bind.bind, Except.bind] at h
              subst h
              intro m hm
              rcases List.mem_cons.mp hm with hm | hm
              · exact ⟨c, List.mem_cons_self _ _, hm ▸ hc⟩
              · obtain ⟨d, hd, hok⟩ := ih ms0 hl m hm
                exact ⟨d, List.mem_cons_of_mem _ hd, hok⟩

lemma migratePagesOf_ok (v : JSValue) (pages : List JSValue)
    (h : ConfigParser.migratePagesOf v = .ok pages) :
    (∃ ps pprops, v = .arr ps pprops ∧
      pages = (ps.map ConfigParser._migratePage).filter truthy) ∨
    (truthy v = false ∧ pages = []) := by
  cases v with
  | arr ps pprops =>
      simp only [ConfigParser.migratePagesOf] at h
      simp at h
      exact Or.inl ⟨ps, pprops, rfl, h.symm⟩
  | undefined =>
      simp only [ConfigParser.migratePagesOf, truthy] at h
      simp at h
      exact Or.inr ⟨rfl, by simp [h]⟩
  | null =>
      simp only [ConfigParser.migratePagesOf, truthy] at h
      simp at h
      exact Or.inr ⟨rfl, by simp [h]⟩
  | bool b =>
      cases b
      · simp only [ConfigParser.migratePagesOf, truthy] at h
        simp at h
        exact Or.inr ⟨rfl, by simp [h]⟩
      · simp only [ConfigParser.migratePagesOf, truthy] at h
        simp at h
  | num m =>
      by_cases hm : m = 0
      · subst hm
        simp only [ConfigParser.migratePagesOf, truthy] at h
        simp at h
        exact Or.inr ⟨by simp [truthy], by simp [h]⟩
      · simp only [ConfigParser.migratePagesOf, truthy] at h
        simp [hm] at h
  | str s =>
      by_cases hs : s = ""
      · subst hs
        simp only [ConfigParser.migratePagesOf, truthy] at h
        simp at h
        exact Or.inr ⟨by simp [truthy], by simp [h]⟩
      · simp only [ConfigParser.migratePagesOf, truthy] at h
        simp [hs] at h
  | obj fields =>
      simp only [ConfigParser.migratePagesOf, truthy] at h
      simp at h

lemma migrateCategoriesOf_ok (v : JSValue) (subs : List JSValue)
    (h : ConfigParser.migrateCategoriesOf v = .ok subs) :
    (∃ cs cprops ms, v = .arr cs cprops ∧
      ConfigParser.migrateCatList cs = .ok ms ∧ subs = ms.filter truthy) ∨
    (truthy v = false ∧ subs = []) := by
  cases v with
  | arr cs cprops =>
      simp only [ConfigParser.migrateCategoriesOf] at h
      cases hl : ConfigParser.migrateCatList cs with
      | error e => rw [hl] at h; simp [Bind.bind, Except.bind] at h
      | ok ms =>
          rw [hl] at h
          simp [Bind.bind, Except.bind] at h
          exact Or.inl ⟨cs, cprops, ms, rfl, hl, h.symm⟩
  | undefined =>
      simp only [ConfigParser.migrateCategoriesOf, truthy] at h
      simp at h
      exact Or.inr ⟨rfl, by simp [h]⟩
  | null =>
      simp only [ConfigParser.migrateCategoriesOf, truthy] at h
      simp at h
      exact Or.inr ⟨rfl, by simp [h]⟩
  | bool b =>
      cases b
      · simp only [ConfigParser.migrateCategoriesOf, truthy] at h
        simp at h
        exact Or.inr ⟨rfl, by simp [h]⟩
      · simp only [ConfigParser.migrateCategoriesOf, truthy] at h
        simp at h
  | num m =>
      by_cases hm : m = 0
      · subst hm
        simp only [ConfigParser.migrateCategoriesOf, truthy] at h
        simp at h
        exact Or.inr ⟨by simp [truthy], by simp [h]⟩
      · simp only [ConfigParser.migrateCategoriesOf, truthy] at h
        simp [hm] at h
  | str s =>
      by_cases hs : s = ""
      · subst hs
        simp only [ConfigParser.migrateCategoriesOf, truthy] at h
        simp at h
        exact Or.inr ⟨by simp [truthy], by simp [h]⟩
      · simp only [ConfigParser.migrateCategoriesOf, truthy] at h
        simp [hs] at h
  | obj fields =>
      simp only [ConfigParser.migrateCategoriesOf, truthy] at h
      simp at h

lemma validatePageList_all_nil (l : List JSValue)
    (h : ∀ q ∈ l, ∀ path, ConfigParser._validatePage q path = []) :
    ∀ pre i, ConfigParser.validatePageList l pre i = [] := by
  induction l with
  | nil => intro pre i; rw [ConfigParser.validatePageList]
  | cons q rest ih =>
      intro pre i
      rw [ConfigParser.validatePageList]
      rw [h q (List.mem_cons_self _ _),
        ih (fun d hd => h d (List.mem_cons_of_mem _ hd)) pre (i + 1)]
      rfl

lemma validateCatList_all_nil (l : List JSValue)
    (h : ∀ q ∈ l, ∀ path, ConfigParser._validateCategory q path = []) :
    ∀ pre i, ConfigParser.validateCatList l pre i = [] := by
  induction l with
  | nil => intro pre i; rw [ConfigParser.validateCatList]
  | cons q rest ih =>
      intro pre i
      rw [ConfigParser.validateCatList]
      rw [h q (List.mem_cons_self _ _),
        ih (fun d hd => h d (List.mem_cons_of_mem _ hd)) pre (i + 1)]
      rfl

lemma truthy_migratePage_elim (p : JSValue)
    (h : truthy (ConfigParser._migratePage p) = true) :
    truthy p = true ∧ truthy (getField p "url") = true := by
  rw [ConfigParser._migratePage] at h
  cases hbp : truthy p
  · simp only [hbp] at h
    simp [truthy] at h
  · cases hbu : truthy (getField p "url")
    · simp only [hbp, hbu] at h
      simp [truthy] at h
    · exact ⟨rfl, rfl⟩

lemma migratePage_kept (p : JSValue) (ht : truthy p = true)
    (hu : truthy (getField p "url") = true) :
    getField (ConfigParser._migratePage p) "name" =
      jsOr (getField p "name") (.str "Unnamed Page") ∧
    getField (ConfigParser._migratePage p) "url" = getField p "url" ∧
    getField (ConfigParser._migratePage p) "blockTypes" =
      (if truthy (getField p "blockTypes") then getField p "blockTypes"
       else .undefined) ∧
    truthy (ConfigParser._migratePage p) = true := by
  rw [ConfigParser._migratePage]
  simp only [ht, hu, Bool.not_true, Bool.or_self, Bool.false_eq_true,
    not_false_eq_true, if_neg, ite_false]
  by_cases hbt : truthy (getField p "blockTypes") <;>
    by_cases hic : truthy (getField p "icon") <;>
      by_cases hlt : truthy (getField p "linkedTokenId") <;>
        simp only [hbt, hic, hlt, ite_true, ite_false, Bool.false_eq_true,
          not_false_eq_true, if_neg, if_pos] <;>
        exact ⟨rfl, rfl, rfl, rfl⟩

lemma goodPage_validatePage (p : JSValue) (hg : goodPage p = true)
    (htm : truthy (ConfigParser._migratePage p) = true) :
    ∀ path, ConfigParser._validatePage (ConfigParser._migratePage p) path = [] := by
  intro path
  obtain ⟨ht, hu⟩ := truthy_migratePage_elim p htm
  obtain ⟨hname, hurl, hbt, htm'⟩ := migratePage_kept p ht hu
  rw [goodPage] at hg
  simp only [ht, hu, Bool.not_true, Bool.false_or, Bool.and_eq_true,
    Bool.or_eq_true, Bool.not_eq_true'] at hg
  obtain ⟨⟨hus, hns⟩, hbs⟩ := hg
  rw [ConfigParser._validatePage]
  simp only [htm', Bool.not_true, Bool.false_eq_true, not_false_eq_true,
    ite_false, if_neg]
  rw [hname, hurl, hbt]
  have h1 : (if (!truthy (jsOr (getField p "name") (.str "Unnamed Page")) ||
        !isString (jsOr (getField p "name") (.str "Unnamed Page"))) = true
      then [path ++ ": falta nombre o no es string"] else []) = [] := by
    rcases hns with hn | hn
    · simp only [jsOr, hn]
      simp [truthy, isString]
    · by_cases htn : truthy (getField p "name")
      · simp only [jsOr, htn, hn]
        simp [htn, hn]
      · simp only [jsOr, htn]
        simp [truthy, isString]
  have h2 : (if (!truthy (getField p "url") || !isString (getField p "url")) = true
      then [path ++ ": falta URL o no es string"] else []) = [] := by
    simp [hu, hus]
  have h3 : (if (truthy (if truthy (getField p "blockTypes") = true
            then getField p "blockTypes" else JSValue.undefined) &&
        !isArray (if truthy (getField p "blockTypes") = true
            then getField p "blockTypes" else JSValue.undefined)) = true
      then [path ++ ".blockTypes: debe ser un array"] else []) = [] := by
    rcases hbs with hb | hb
    · simp only [hb]
      simp [truthy]
    · by_cases htb : truthy (getField p "blockTypes")
      · simp only [htb]
        simp [htb, hb]
      · simp only [htb]
        simp [truthy]
  rw [h1, h2, h3]
  rfl

lemma migrateCategory_ok_fields (c m : JSValue) (htc : truthy c = true)
    (h : ConfigParser._migrateCategory c = .ok m) :
    ∃ pages subs,
      ConfigParser.migratePagesOf (getField c "pages") = .ok pages ∧
      ConfigParser.migrateCategoriesOf (getField c "categories") = .ok subs ∧
      truthy m = true ∧
      getField m "name" = jsOr (getField c "name") (.str "Unnamed Category") ∧
      getField m "pages" = .arr pages [] ∧
      getField m "categories" = .arr subs [] := by
  rw [ConfigParser._migrateCategory] at h
  simp only [htc, Bool.not_true, Bool.false_eq_true, not_false_eq_true,
    ite_false, if_neg] at h
  cases hp : ConfigParser.migratePagesOf (getField c "pages") with
  | error e => rw [hp] at h; simp [Bind.bind, Except.bind] at h
  | ok pages =>
      rw [hp] at h
      cases hcf : ConfigParser.migrateCategoriesOf (getField c "categories") with
      | error e => rw [hcf] at h; simp [Bind.bind, Except.bind] at h
      | ok subs =>
          rw [hcf] at h
          simp only [Bind.bind, Except.bind] at h
          refine ⟨pages, subs, rfl, rfl, ?_⟩
          cases hcol : getField c "collapsed" with
          | undefined =>
              rw [hcol] at h
              simp at h
              rw [← h]
              refine ⟨rfl, ?_, ?_, ?_⟩ <;> simp [getField, lookupKey]
          | null =>
              rw [hcol] at h
              simp [setField, putKey] at h
              rw [← h]
              refine ⟨rfl, ?_, ?_, ?_⟩ <;> simp [getField, lookupKey]
          | bool b =>
              rw [hcol] at h
              simp [setField, putKey] at h
              rw [← h]
              refine ⟨rfl, ?_, ?_, ?_⟩ <;> simp [getField, lookupKey]
          | num n =>
              rw [hcol] at h
              simp [setField, putKey] at h
              rw [← h]
              refine ⟨rfl, ?_, ?_, ?_⟩ <;> simp [getField, lookupKey]
          | str s =>
              rw [hcol] at h
              simp [setField, putKey] at h
              rw [← h]
              refine ⟨rfl, ?_, ?_, ?_⟩ <;> simp [getField, lookupKey]
          | arr es ps =>
              rw [hcol] at h
              simp [setField, putKey] at h
              rw [← h]
              refine ⟨rfl, ?_, ?_, ?_⟩ <;> simp [getField, lookupKey]
          | obj fs =>
              rw [hcol] at h
              simp [setField, putKey] at h
              rw [← h]
              refine ⟨rfl, ?_, ?_, ?_⟩ <;> simp [getField, lookupKey]

lemma goodCat_migrate_validate :
    ∀ (n : Nat) (c : JSValue), sizeOf c < n → goodCat c = true →
      ∀ m, ConfigParser._migrateCategory c = .ok m → truthy m = true →
      ∀ path, ConfigParser._validateCategory m path = [] := by
  intro n
  induction n with
  | zero => intro c h; omega
  | succ n ih =>
      intro c hlt hg m hok htm path
      by_cases htc : truthy c
      · obtain ⟨pages, subs, hpok, hcok, htm2, hname, hpag, hcat⟩ :=
          migrateCategory_ok_fields c m htc hok
        rw [goodCat] at hg
        simp only [htc, Bool.not_true, Bool.false_or, Bool.and_eq_true] at hg
        obtain ⟨⟨hgn, hgp⟩, hgc⟩ := hg
        have hp' : ConfigParser.validatePageList pages (path ++ ".pages") 0 = [] := by
          apply validatePageList_all_nil
          intro q hq path'
          rcases migratePagesOf_ok _ pages hpok with
            ⟨ps, pprops, hfield, hpeq⟩ | ⟨_, hpeq⟩
          · rw [hpeq] at hq
            obtain ⟨hqf, hqt⟩ := List.mem_filter.mp hq
            obtain ⟨p0, hp0, hp0eq⟩ := List.mem_map.mp hqf
            simp only [hfield] at hgp
            have hgood := List.all_eq_true.mp hgp p0 hp0
            rw [← hp0eq]
            exact goodPage_validatePage p0 hgood (by rw [hp0eq]; exact hqt) path'
          · rw [hpeq] at hq
            simp at hq
        have hc' : ConfigParser.validateCatList subs (path ++ ".categories") 0 = [] := by
          apply validateCatList_all_nil
          intro q hq path'
          rcases migrateCategoriesOf_ok _ subs hcok with
            ⟨cs, cprops, ms, hfield, hml, hseq⟩ | ⟨_, hseq⟩
          · rw [hseq] at hq
            obtain ⟨hqm, hqt⟩ := List.mem_filter.mp hq
            obtain ⟨c0, hc0, hc0ok⟩ := migrateCatList_ok_mem cs ms hml q hqm
            simp only [hfield, goodCatsField] at hgc
            have hg0 := goodCatList_mem cs hgc c0 hc0
            have hsize := sizeOf_mem_field_lt c c0 "categories" cs cprops hfield hc0
            exact ih c0 (by omega) hg0 q hc0ok hqt path'
          · rw [hseq] at hq
            simp at hq
        rw [ConfigParser._validateCategory]
        simp only [htm, Bool.not_true, Bool.false_eq_true, not_false_eq_true,
          ite_false, if_neg]
        simp only [hpag, hcat, hname, ConfigParser.validateCatsField]
        rw [hp', hc']
        simp only [List.append_nil]
        simp only [Bool.or_eq_true, Bool.not_eq_true'] at hgn
        rcases hgn with hgn | hgn
        · simp only [jsOr, hgn]
          simp [truthy, isString]
        · by_cases htn : truthy (getField c "name")
          · simp only [jsOr, htn, hgn]
            simp [htn, hgn]
          · simp only [jsOr, htn]
            simp [truthy, isString]
      · rw [ConfigParser._migrateCategory] at hok
        simp only [htc] at hok
        simp at hok
        rw [← hok] at htm
        simp [truthy] at htm

/-- C1 (amended): `validate(migrate(x))` is valid for every `x` on which
`migrate` returns whose deep clone (the copy `migrate` actually processes)
is falsy or has all-truthy top-level category entries that are recursively
"good": string-or-falsy names, string `url`s on kept pages, string-or-falsy
page names, and array-or-falsy `blockTypes`.  (Unrestricted, the claim fails:
a `null` top-level entry survives migration — see the counterexample — as do
truthy non-string names and urls, which migrate carries over unchanged.) -/
theorem claim_C1 (json y : JSValue)
    (hok : ConfigParser.migrate json = .ok y)
    (hg : goodConfig (deepClone json) = true) :
    (ConfigParser.validate y).valid = true := by
  by_cases ht : truthy json
  · rw [ConfigParser.migrate] at hok
    simp only [ht, Bool.not_true, Bool.false_eq_true, not_false_eq_true,
      ite_false, if_neg, Bind.bind, Except.bind] at hok
    rw [goodConfig, truthy_deepClone, ht] at hg
    simp only [Bool.not_true, Bool.false_or] at hg
    by_cases htf : truthy (getField (deepClone json) "categories")
    · simp only [htf, Bool.not_true, Bool.false_eq_true, not_false_eq_true,
        ite_false, if_neg] at hok
      cases hgf : getField (deepClone json) "categories" with
      | arr cats props =>
          simp only [hgf] at hok hg
          simp only [Bool.and_eq_true] at hg
          cases hml : ConfigParser.migrateCatList cats with
          | error e => rw [hml] at hok; simp at hok
          | ok ms =>
              rw [hml] at hok
              have hty : truthy y = true :=
                canSetProp_truthy y (setField_ok_canSet _ _ _ _ hok)
              have hgy : getField y "categories" = .arr ms [] :=
                getField_setField _ _ _ _ hok
              obtain ⟨herr, hval⟩ := validate_errors_eq y ms [] hty hgy
              rw [hval]
              have : ConfigParser.validateCatList ms "categories" 0 = [] := by
                apply validateCatList_all_nil
                intro q hq path
                obtain ⟨c0, hc0, hc0ok⟩ := migrateCatList_ok_mem cats ms hml q hq
                have htc0 : truthy c0 = true := List.all_eq_true.mp hg.1 c0 hc0
                have hg0 := goodCatList_mem cats hg.2 c0 hc0
                obtain ⟨_, _, _, _, htq, _, _, _⟩ :=
                  migrateCategory_ok_fields c0 q htc0 hc0ok
                exact goodCat_migrate_validate (sizeOf c0 + 1) c0 (by omega)
                  hg0 q hc0ok htq path
              rw [this]
              rfl
      | undefined => rw [hgf] at htf; simp [truthy] at htf
      | null => rw [hgf] at htf; simp [truthy] at htf
      | bool b =>
          rw [hgf] at hok
          simp at hok
      | num m =>
          rw [hgf] at hok
          simp at hok
      | str s =>
          rw [hgf] at hok
          simp at hok
      | obj fields =>
          rw [hgf] at hok
          simp at hok
    · simp only [htf, Bool.not_false, ite_true, if_pos] at hok
      cases hs : setField (deepClone json) "categories" (.arr [] []) with
      | error e => rw [hs] at hok; simp at hok
      | ok v1 =>
          rw [hs] at hok
          have hg1 : getField v1 "categories" = .arr [] [] :=
            getField_setField _ _ _ _ hs
          simp only [Bind.bind, Except.bind, hg1, ConfigParser.migrateCatList] at hok
          have hty : truthy y = true :=
            canSetProp_truthy y (setField_ok_canSet _ _ _ _ hok)
          have hgy : getField y "categories" = .arr [] [] :=
            getField_setField _ _ _ _ hok
          obtain ⟨herr, hval⟩ := validate_errors_eq y [] [] hty hgy
          rw [hval, ConfigParser.validateCatList]
          rfl
  · rw [ConfigParser.migrate] at hok
    simp only [ht] at hok
    simp at hok
    rw [← hok, ConfigParser.validate]
    simp [truthy, getField, lookupKey, ConfigParser.validateCatList]

/-- C1 witness: a good one-category config migrates to a shape that
validates. -/
theorem claim_C1_witness :
    ConfigParser.migrate (.obj [("categories", .arr [.obj [("name", .str "A")]] [])]) =
      .ok (.obj [("categories",
        .arr [.obj [("name", .str "A"), ("pages", .arr [] []),
                    ("categories", .arr [] [])]] [])]) ∧
    (ConfigParser.validate
      (.obj [("categories",
        .arr [.obj [("name", .str "A"), ("pages", .arr [] []),
                    ("categories", .arr [] [])]] [])])).valid = true := by
  have hmig : ConfigParser.migrate
      (.obj [("categories", .arr [.obj [("name", .str "A")]] [])]) =
      .ok (.obj [("categories",
        .arr [.obj [("name", .str "A"), ("pages", .arr [] []),
                    ("categories", .arr [] [])]] [])]) := by
    simp [ConfigParser.migrate, truthy, getField, lookupKey, deepClone,
      cloneFields, cloneElems, ConfigParser.migrateCatList,
      ConfigParser._migrateCategory, ConfigParser.migratePagesOf,
      ConfigParser.migrateCategoriesOf, jsOr, setField, putKey,
      Bind.bind, Except.bind]
  refine ⟨hmig, ?_⟩
  exact claim_C1 _ _ hmig (by
    simp [goodConfig, deepClone, cloneFields, cloneElems, truthy, getField,
      lookupKey, goodCatList, goodCat, goodCatsField, goodPage, isString,
      isArray])

/- "Clean" values: no `undefined` inside and no extra array properties —
exactly the invariant `JSON.parse(JSON.stringify(.))` establishes, under
which `deepClone` is the identity. -/
mutual
def cleanV : JSValue → Bool
  | .undefined => false
  | .arr elems props => props.isEmpty && cleanL elems
  | .obj fields => cleanF fields
  | _ => true

def cleanL : List JSValue → Bool
  | [] => true
  | v :: rest => cleanV v && cleanL rest

def cleanF : List (String × JSValue) → Bool
  | [] => true
  | (_, v) :: rest => cleanV v && cleanF rest
end

lemma clone_clean :
    ∀ (n : Nat),
      (∀ v : JSValue, sizeOf v < n → v ≠ .undefined → cleanV (deepClone v) = true) ∧
      (∀ l : List JSValue, sizeOf l < n → cleanL (cloneElems l) = true) ∧
      (∀ f : List (String × JSValue), sizeOf f < n → cleanF (cloneFields f) = true) := by
  intro n
  induction n with
  | zero => refine ⟨?_, ?_, ?_⟩ <;> intro x h <;> omega
  | succ n ih =>
      obtain ⟨ihv, ihl, ihf⟩ := ih
      refine ⟨?_, ?_, ?_⟩
      · intro v hlt hne
        cases v with
        | undefined => exact absurd rfl hne
        | null => simp [deepClone, cleanV]
        | bool b => simp [deepClone, cleanV]
        | num m => simp [deepClone, cleanV]
        | str s => simp [deepClone, cleanV]
        | arr elems props =>
            rw [deepClone, cleanV]
            simp only [List.isEmpty_nil, Bool.true_and]
            exact ihl elems (by simp at hlt; omega)
        | obj fields =>
            rw [deepClone, cleanV]
            exact ihf fields (by simp at hlt; omega)
      · intro l hlt
        cases l with
        | nil => simp [cloneElems, cleanL]
        | cons v rest =>
            have hrest := ihl rest (by simp at hlt; omega)
            cases v with
            | undefined => simp [cloneElems, cleanL, cleanV, hrest]
            | null => simp [cloneElems, cleanL, deepClone, cleanV, hrest]
            | bool b => simp [cloneElems, cleanL, deepClone, cleanV, hrest]
            | num m => simp [cloneElems, cleanL, deepClone, cleanV, hrest]
            | str s => simp [cloneElems, cleanL, deepClone, cleanV, hrest]
            | arr elems props =>
                have hv := ihv (.arr elems props) (by simp at hlt; simp; omega)
                  (by simp)
                simp [cloneElems, cleanL, hrest, hv]
            | obj fields =>
                have hv := ihv (.obj fields) (by simp at hlt; simp; omega) (by simp)
                simp [cloneElems, cleanL, hrest, hv]
      · intro f hlt
        cases f with
        | nil => simp [cloneFields, cleanF]
        | cons kv rest =>
            obtain ⟨k, v⟩ := kv
            have hrest := ihf rest (by simp at hlt; omega)
            cases v with
            | undefined => simp [cloneFields, hrest]
            | null => simp [cloneFields, cleanF, deepClone, cleanV, hrest]
            | bool b => simp [cloneFields, cleanF, deepClone, cleanV, hrest]
            | num m => simp [cloneFields, cleanF, deepClone, cleanV, hrest]
            | str s => simp [cloneFields, cleanF, deepClone, cleanV, hrest]
            | arr elems props =>
                have hv := ihv (.arr elems props) (by simp at hlt; simp; omega)
                  (by simp)
                simp [cloneFields, cleanF, hrest, hv]
            | obj fields =>
                have hv := ihv (.obj fields) (by simp at hlt; simp; omega) (by simp)
                simp [cloneFields, cleanF, hrest, hv]

lemma clean_fix :
    ∀ (n : Nat),
      (∀ v : JSValue, sizeOf v < n → cleanV v = true → deepClone v = v) ∧
      (∀ l : List JSValue, sizeOf l < n → cleanL l = true → cloneElems l = l) ∧
      (∀ f : List (String × JSValue), sizeOf f < n → cleanF f = true →
        cloneFields f = f) := by
  intro n
  induction n with
  | zero => refine ⟨?_, ?_, ?_⟩ <;> intro x h <;> omega
  | succ n ih =>
      obtain ⟨ihv, ihl, ihf⟩ := ih
      refine ⟨?_, ?_, ?_⟩
      · intro v hlt hc
        cases v with
        | undefined => simp [cleanV] at hc
        | null => rfl
        | bool b => rfl
        | num m => rfl
        | str s => rfl
        | arr elems props =>
            rw [cleanV] at hc
            simp only [Bool.and_eq_true, List.isEmpty_iff] at hc
            rw [deepClone, hc.1, ihl elems (by simp at hlt; omega) hc.2]
        | obj fields =>
            rw [cleanV] at hc
            rw [deepClone, ihf fields (by simp at hlt; omega) hc]
      · intro l hlt hc
        cases l with
        | nil => rfl
        | cons v rest =>
            rw [cleanL] at hc
            simp only [Bool.and_eq_true] at hc
            have hrest := ihl rest (by simp at hlt; omega) hc.2
            cases v with
            | undefined => simp [cleanV] at hc
            | null => simp [cloneElems, deepClone, hrest]
            | bool b => simp [cloneElems, deepClone, hrest]
            | num m => simp [cloneElems, deepClone, hrest]
            | str s => simp [cloneElems, deepClone, hrest]
            | arr elems props =>
                have hv := ihv (.arr elems props) (by simp at hlt; simp; omega)
                  hc.1
                simp [cloneElems, hrest, hv]
            | obj fields =>
                have hv := ihv (.obj fields) (by simp at hlt; simp; omega) hc.1
                simp [cloneFields, cloneElems, hrest, hv]
      · intro f hlt hc
        cases f with
        | nil => rfl
        | cons kv rest =>
            obtain ⟨k, v⟩ := kv
            rw [cleanF] at hc
            simp only [Bool.and_eq_true] at hc
            have hrest := ihf rest (by simp at hlt; omega) hc.2
            cases v with
            | undefined => simp [cleanV] at hc
            | null => simp [cloneFields, deepClone, hrest]
            | bool b => simp [cloneFields, deepClone, hrest]
            | num m => simp [cloneFields, deepClone, hrest]
            | str s => simp [cloneFields, deepClone, hrest]
            | arr elems props =>
                have hv := ihv (.arr elems props) (by simp at hlt; simp; omega)
                  hc.1
                simp [cloneFields, hrest, hv]
            | obj fields =>
                have hv := ihv (.obj fields) (by simp at hlt; simp; omega) hc.1
                simp [cloneFields, hrest, hv]

lemma cleanL_mem (l : List JSValue) (h : cleanL l = true) :
    ∀ v ∈ l, cleanV v = true := by
  induction l with
  | nil => simp
  | cons v rest ih =>
      rw [cleanL] at h
      simp only [Bool.and_eq_true] at h
      intro w hw
      rcases List.mem_cons.mp hw with hw | hw
      · rw [hw]; exact h.1
      · exact ih h.2 w hw

lemma cleanF_lookup (f : List (String × JSValue)) (h : cleanF f = true)
    (key : String) (v : JSValue) (hl : lookupKey f key = some v) :
    cleanV v = true := by
  induction f with
  | nil => simp [lookupKey] at hl
  | cons kv rest ih =>
      obtain ⟨k, w⟩ := kv
      rw [cleanF] at h
      simp only [Bool.and_eq_true] at h
      by_cases hk : k = key
      · simp [lookupKey, hk] at hl
        rw [← hl]; exact h.1
      · simp [lookupKey, hk] at hl
        exact ih h.2 hl

lemma cleanV_getField (v : JSValue) (h : cleanV v = true) (key : String) :
    getField v key = .undefined ∨ cleanV (getField v key) = true := by
  cases v with
  | obj fields =>
      rw [cleanV] at h
      simp only [getField]
      cases hl : lookupKey fields key with
      | none => exact Or.inl rfl
      | some w => exact Or.inr (cleanF_lookup fields h key w hl)
  | arr elems props =>
      rw [cleanV] at h
      simp only [Bool.and_eq_true, List.isEmpty_iff] at h
      simp [getField, h.1, lookupKey]
  | undefined => exact Or.inl rfl
  | null => exact Or.inl rfl
  | bool b => exact Or.inl rfl
  | num m => exact Or.inl rfl
  | str s => exact Or.inl rfl

lemma cleanF_putKey (f : List (String × JSValue)) (key : String) (v : JSValue)
    (hf : cleanF f = true) (hv : cleanV v = true) :
    cleanF (putKey f key v) = true := by
  induction f with
  | nil => simp [putKey, cleanF, hv]
  | cons kv rest ih =>
      obtain ⟨k, w⟩ := kv
      rw [cleanF] at hf
      simp only [Bool.and_eq_true] at hf
      by_cases hk : k = key <;> simp [putKey, hk, cleanF, hv, hf.1, hf.2, ih hf.2]

lemma putKey_putKey {α : Type} (l : List (String × α)) (key : String) (v : α) :
    putKey (putKey l key v) key v = putKey l key v := by
  induction l with
  | nil => simp [putKey]
  | cons kw rest ih =>
      obtain ⟨k, w⟩ := kw
      by_cases hk : k = key <;> simp [putKey, hk, ih]

lemma jsOr_truthy_right (a b : JSValue) (h : truthy b = true) :
    truthy (jsOr a b) = true := by
  rw [jsOr]
  split <;> simp_all

lemma jsOr_jsOr (a b : JSValue) (h : truthy b = true) :
    jsOr (jsOr a b) b = jsOr a b := by
  rw [jsOr, jsOr]
  by_cases ha : truthy a <;> simp [ha, jsOr, h]

lemma jsOr_vtp (a b : JSValue) :
    jsOr (jsOr (jsOr (jsOr a b) (.bool false)) .undefined) (.bool false) =
      jsOr (jsOr a b) (.bool false) := by
  by_cases ht : truthy (jsOr a b)
  · rw [show jsOr (jsOr a b) (.bool false) = jsOr a b from by rw [jsOr]; simp [ht]]
    rw [show jsOr (jsOr a b) .undefined = jsOr a b from by rw [jsOr]; simp [ht]]
    rw [jsOr]
    simp [ht]
  · rw [show jsOr (jsOr a b) (.bool false) = .bool false from by
      rw [jsOr]; simp [ht]]
    rfl

lemma truthy_obj (fields : List (String × JSValue)) :
    truthy (.obj fields) = true := rfl

lemma truthy_arr (elems : List JSValue) (props : List (String × JSValue)) :
    truthy (.arr elems props) = true := rfl

/-- The kept-page output of `_migratePage`, written out. -/
lemma migratePage_fields (p : JSValue) (ht : truthy p = true)
    (hu : truthy (getField p "url") = true) :
    ConfigParser._migratePage p =
      .obj ([("name", jsOr (getField p "name") (.str "Unnamed Page")),
             ("url", getField p "url"),
             ("visibleToPlayers",
              jsOr (jsOr (getField p "visibleToPlayers") (getField p "visible"))
                (.bool false))]
        ++ (if truthy (getField p "blockTypes")
            then [("blockTypes", getField p "blockTypes")] else [])
        ++ (if truthy (getField p "icon")
            then [("icon", getField p "icon")] else [])
        ++ (if truthy (getField p "linkedTokenId")
            then [("linkedTokenId", getField p "linkedTokenId")] else [])) := by
  rw [ConfigParser._migratePage]
  simp only [ht, hu, Bool.not_true, Bool.or_self, Bool.false_eq_true,
    not_false_eq_true, if_neg, ite_false]

/-- Every property read of a kept migrated page, in terms of the source
page's properties. -/
lemma migratePage_getAll (p : JSValue) (ht : truthy p = true)
    (hu : truthy (getField p "url") = true) :
    getField (ConfigParser._migratePage p) "name" =
      jsOr (getField p "name") (.str "Unnamed Page") ∧
    getField (ConfigParser._migratePage p) "url" = getField p "url" ∧
    getField (ConfigParser._migratePage p) "visibleToPlayers" =
      jsOr (jsOr (getField p "visibleToPlayers") (getField p "visible"))
        (.bool false) ∧
    getField (ConfigParser._migratePage p) "visible" = .undefined ∧
    getField (ConfigParser._migratePage p) "blockTypes" =
      (if truthy (getField p "blockTypes") then getField p "blockTypes"
       else .undefined) ∧
    getField (ConfigParser._migratePage p) "icon" =
      (if truthy (getField p "icon") then getField p "icon" else .undefined) ∧
    getField (ConfigParser._migratePage p) "linkedTokenId" =
      (if truthy (getField p "linkedTokenId") then getField p "linkedTokenId"
       else .undefined) := by
  rw [migratePage_fields p ht hu]
  by_cases hbt : truthy (getField p "blockTypes") <;>
    by_cases hic : truthy (getField p "icon") <;>
      by_cases hlt : truthy (getField p "linkedTokenId") <;>
        simp only [hbt, hic, hlt, ite_true, ite_false, Bool.false_eq_true,
          not_false_eq_true, if_neg, if_pos] <;>
        exact ⟨rfl, rfl, rfl, rfl, rfl, rfl, rfl⟩

lemma opt_entry_stable (k : String) (x : JSValue) :
    (if truthy (if truthy x then x else JSValue.undefined)
     then [(k, if truthy x then x else JSValue.undefined)] else []) =
      (if truthy x then [(k, x)] else []) := by
  by_cases hx : truthy x
  · simp [hx]
  · simp only [hx]
    simp [truthy]

/-- A page that survives migration is a fixed point of `_migratePage`. -/
lemma migratePage_idem (p : JSValue)
    (htm : truthy (ConfigParser._migratePage p) = true) :
    ConfigParser._migratePage (ConfigParser._migratePage p) =
      ConfigParser._migratePage p := by
  obtain ⟨ht, hu⟩ := truthy_migratePage_elim p htm
  obtain ⟨hn, hu2, hv, hvis, hb, hi, hl⟩ := migratePage_getAll p ht hu
  have hu3 : truthy (getField (ConfigParser._migratePage p) "url") = true := by
    rw [hu2]; exact hu
  rw [migratePage_fields (ConfigParser._migratePage p) htm hu3]
  rw [hn, hu2, hv, hvis, hb, hi, hl]
  rw [jsOr_jsOr _ _ (by rfl), jsOr_vtp]
  rw [opt_entry_stable, opt_entry_stable, opt_entry_stable]
  rw [migratePage_fields p ht hu]

lemma cleanF_append (l1 l2 : List (String × JSValue)) :
    cleanF (l1 ++ l2) = (cleanF l1 && cleanF l2) := by
  induction l1 with
  | nil => simp [cleanF]
  | cons kv rest ih =>
      obtain ⟨k, v⟩ := kv
      rw [List.cons_append, cleanF, cleanF, ih, Bool.and_assoc]

lemma cleanV_jsOr (v d : JSValue) (hv : v = .undefined ∨ cleanV v = true)
    (hd : cleanV d = true) : cleanV (jsOr v d) = true := by
  rw [jsOr]
  split
  · rcases hv with hv | hv
    · rename_i hvt
      rw [hv] at hvt
      simp [truthy] at hvt
    · exact hv
  · exact hd

/-- A kept migrated page is clean when the source page is. -/
lemma migratePage_clean (p : JSValue) (hp : cleanV p = true)
    (htm : truthy (ConfigParser._migratePage p) = true) :
    cleanV (ConfigParser._migratePage p) = true := by
  obtain ⟨ht, hu⟩ := truthy_migratePage_elim p htm
  rw [migratePage_fields p ht hu]
  rw [cleanV, cleanF_append, cleanF_append]
  have hclean : ∀ key, getField p key = .undefined ∨ cleanV (getField p key) = true :=
    fun key => cleanV_getField p hp key
  have hcleanT : ∀ key, truthy (getField p key) = true →
      cleanV (getField p key) = true := by
    intro key hk
    rcases hclean key with h | h
    · rw [h] at hk; simp [truthy] at hk
    · exact h
  have h1 : cleanV (jsOr (getField p "name") (.str "Unnamed Page")) = true :=
    cleanV_jsOr _ _ (by
      rcases hclean "name" with h | h
      · exact Or.inl h
      · exact Or.inr h) (by rfl)
  have h2 : cleanV (getField p "url") = true := hcleanT "url" hu
  have h3 : cleanV (jsOr (jsOr (getField p "visibleToPlayers")
      (getField p "visible")) (.bool false)) = true := by
    apply cleanV_jsOr
    · by_cases hv : truthy (getField p "visibleToPlayers")
      · rw [jsOr, if_pos hv]
        exact Or.inr (hcleanT _ hv)
      · rw [jsOr, if_neg (by simp [hv])]
        rcases hclean "visible" with h | h
        · exact Or.inl h
        · exact Or.inr h
    · rfl
  have hopt : ∀ key, cleanF (if truthy (getField p key)
      then [(key, getField p key)] else []) = true := by
    intro key
    by_cases hk : truthy (getField p key)
    · simp [hk, cleanF, hcleanT key hk]
    · simp [hk, cleanF]
  simp [cleanF, h1, h2, h3, hopt]

/-- The kept-category output of `_migrateCategory`, written out, including
the optional `collapsed` carry-over. -/
lemma migrateCategory_ok_shape (c m : JSValue) (htc : truthy c = true)
    (h : ConfigParser._migrateCategory c = .ok m) :
    ∃ pages subs,
      ConfigParser.migratePagesOf (getField c "pages") = .ok pages ∧
      ConfigParser.migrateCategoriesOf (getField c "categories") = .ok subs ∧
      ((getField c "collapsed" = .undefined ∧
        m = .obj [("name", jsOr (getField c "name") (.str "Unnamed Category")),
                  ("pages", .arr pages []),
                  ("categories", .arr subs [])]) ∨
       (getField c "collapsed" ≠ .undefined ∧
        m = .obj ([("name", jsOr (getField c "name") (.str "Unnamed Category")),
                   ("pages", .arr pages []),
                   ("categories", .arr subs [])]
          ++ [("collapsed", getField c "collapsed")]))) := by
  rw [ConfigParser._migrateCategory] at h
  simp only [htc, Bool.not_true, Bool.false_eq_true, not_false_eq_true,
    ite_false, if_neg] at h
  cases hp : ConfigParser.migratePagesOf (getField c "pages") with
  | error e => rw [hp] at h; simp [Bind.bind, Except.bind] at h
  | ok pages =>
      rw [hp] at h
      cases hcf : ConfigParser.migrateCategoriesOf (getField c "categories") with
      | error e => rw [hcf] at h; simp [Bind.bind, Except.bind] at h
      | ok subs =>
          rw [hcf] at h
          simp only [Bind.bind, Except.bind] at h
          refine ⟨pages, subs, rfl, rfl, ?_⟩
          cases hcol : getField c "collapsed" with
          | undefined =>
              rw [hcol] at h
              simp at h
              exact Or.inl ⟨rfl, h.symm⟩
          | null =>
              rw [hcol] at h
              simp [setField, putKey] at h
              exact Or.inr ⟨by simp, h.symm⟩
          | bool b =>
              rw [hcol] at h
              simp [setField, putKey] at h
              exact Or.inr ⟨by simp, h.symm⟩
          | num n =>
              rw [hcol] at h
              simp [setField, putKey] at h
              exact Or.inr ⟨by simp, h.symm⟩
          | str s =>
              rw [hcol] at h
              simp [setField, putKey] at h
              exact Or.inr ⟨by simp, h.symm⟩
          | arr es ps =>
              rw [hcol] at h
              simp [setField, putKey] at h
              exact Or.inr ⟨by simp, h.symm⟩
          | obj fs =>
              rw [hcol] at h
              simp [setField, putKey] at h
              exact Or.inr ⟨by simp, h.symm⟩

lemma map_filter_stable (l : List JSValue) (f : JSValue → JSValue)
    (h : ∀ q ∈ l, f q = q ∧ truthy q = true) :
    (l.map f).filter truthy = l := by
  induction l with
  | nil => rfl
  | cons q rest ih =>
      obtain ⟨hfq, htq⟩ := h q (List.mem_cons_self _ _)
      rw [List.map_cons, List.filter_cons, hfq]
      simp only [htq, ite_true, if_pos]
      rw [ih (fun d hd => h d (List.mem_cons_of_mem _ hd))]

lemma migratePagesOf_stable (v : JSValue) (pages : List JSValue)
    (h : ConfigParser.migratePagesOf v = .ok pages) :
    (pages.map ConfigParser._migratePage).filter truthy = pages := by
  rcases migratePagesOf_ok v pages h with ⟨ps, pprops, _, hpeq⟩ | ⟨_, hpeq⟩
  · apply map_filter_stable
    intro q hq
    rw [hpeq] at hq
    obtain ⟨hqf, hqt⟩ := List.mem_filter.mp hq
    obtain ⟨p0, _, hp0eq⟩ := List.mem_map.mp hqf
    refine ⟨?_, hqt⟩
    rw [← hp0eq]
    exact migratePage_idem p0 (by rw [hp0eq]; exact hqt)
  · rw [hpeq]
    rfl

lemma migrateCatList_of_pointwise (l : List JSValue)
    (h : ∀ q ∈ l, ConfigParser._migrateCategory q = .ok q) :
    ConfigParser.migrateCatList l = .ok l := by
  induction l with
  | nil => rw [ConfigParser.migrateCatList]
  | cons q rest ih =>
      rw [ConfigParser.migrateCatList, h q (List.mem_cons_self _ _),
        ih (fun d hd => h d (List.mem_cons_of_mem _ hd))]
      rfl

/-- A migrated category is a fixed point of `_migrateCategory`. -/
lemma migrateCategory_idem :
    ∀ (n : Nat) (c : JSValue), sizeOf c < n →
      ∀ m, ConfigParser._migrateCategory c = .ok m →
      ConfigParser._migrateCategory m = .ok m := by
  intro n
  induction n with
  | zero => intro c h; omega
  | succ n ih =>
      intro c hlt m hok
      by_cases htc : truthy c
      · obtain ⟨pages0, subs0, hpok, hcok, htm, hname, hpag, hcat⟩ :=
          migrateCategory_ok_fields c m htc hok
        obtain ⟨pages, subs, hpok2, hcok2, hshape⟩ :=
          migrateCategory_ok_shape c m htc hok
        rw [hpok] at hpok2
        rw [hcok] at hcok2
        simp only [Except.ok.injEq] at hpok2 hcok2
        subst hpok2
        subst hcok2
        have hsubs_pt : ∀ q ∈ subs0, ConfigParser._migrateCategory q = .ok q := by
          intro q hq
          rcases migrateCategoriesOf_ok _ subs0 hcok with
            ⟨cs, cprops, ms, hfield, hml, hseq⟩ | ⟨_, hseq⟩
          · rw [hseq] at hq
            obtain ⟨hqm, _⟩ := List.mem_filter.mp hq
            obtain ⟨c0, hc0, hc0ok⟩ := migrateCatList_ok_mem cs ms hml q hqm
            have hsize := sizeOf_mem_field_lt c c0 "categories" cs cprops hfield hc0
            exact ih c0 (by omega) q hc0ok
          · rw [hseq] at hq
            simp at hq
        have hsubs_t : ∀ q ∈ subs0, truthy q = true := by
          intro q hq
          rcases migrateCategoriesOf_ok _ subs0 hcok with
            ⟨cs, cprops, ms, hfield, hml, hseq⟩ | ⟨_, hseq⟩
          · rw [hseq] at hq
            exact (List.mem_filter.mp hq).2
          · rw [hseq] at hq
            simp at hq
        have hcats_ok : ConfigParser.migrateCategoriesOf (.arr subs0 []) =
            .ok subs0 := by
          rw [ConfigParser.migrateCategoriesOf,
            migrateCatList_of_pointwise subs0 hsubs_pt]
          simp [Bind.bind, Except.bind, List.filter_eq_self.mpr hsubs_t]
        have hpages_ok : ConfigParser.migratePagesOf (.arr pages0 []) =
            .ok pages0 := by
          rw [ConfigParser.migratePagesOf, migratePagesOf_stable _ pages0 hpok]
        rw [ConfigParser._migrateCategory]
        simp only [htm, Bool.not_true, Bool.false_eq_true, not_false_eq_true,
          ite_false, if_neg]
        rw [hpag, hpages_ok, hcat, hcats_ok]
        simp only [Bind.bind, Except.bind]
        rw [hname, jsOr_jsOr _ _ (by rfl)]
        rcases hshape with ⟨hcol, hm⟩ | ⟨hcol, hm⟩
        · have hmcol : getField m "collapsed" = .undefined := by
            rw [hm]
            rfl
          rw [hmcol, hm]
        · have hmcol : getField m "collapsed" = getField c "collapsed" := by
            rw [hm]
            rfl
          rw [hmcol]
          cases hcv : getField c "collapsed" with
          | undefined => exact absurd hcv hcol
          | null => rw [hm, hcv]; simp [setField, putKey]
          | bool b => rw [hm, hcv]; simp [setField, putKey]
          | num k => rw [hm, hcv]; simp [setField, putKey]
          | str s => rw [hm, hcv]; simp [setField, putKey]
          | arr es ps => rw [hm, hcv]; simp [setField, putKey]
          | obj fs => rw [hm, hcv]; simp [setField, putKey]
      · rw [ConfigParser._migrateCategory] at hok
        simp only [htc] at hok
        simp at hok
        rw [← hok]
        rw [ConfigParser._migrateCategory]
        simp [truthy]

lemma cleanL_of_forall (l : List JSValue) (h : ∀ v ∈ l, cleanV v = true) :
    cleanL l = true := by
  induction l with
  | nil => rfl
  | cons v rest ih =>
      rw [cleanL]
      simp only [Bool.and_eq_true]
      exact ⟨h v (List.mem_cons_self _ _),
        ih (fun d hd => h d (List.mem_cons_of_mem _ hd))⟩

lemma cleanV_getField_of_truthy (c : JSValue) (hc : cleanV c = true)
    (key : String) (ht : truthy (getField c key) = true) :
    cleanV (getField c key) = true := by
  rcases cleanV_getField c hc key with h | h
  · rw [h] at ht
    simp [truthy] at ht
  · exact h

/-- A migrated category is clean when its source is. -/
lemma migrateCategory_clean :
    ∀ (n : Nat) (c : JSValue), sizeOf c < n → cleanV c = true →
      ∀ m, ConfigParser._migrateCategory c = .ok m → cleanV m = true := by
  intro n
  induction n with
  | zero => intro c h; omega
  | succ n ih =>
      intro c hlt hc m hok
      by_cases htc : truthy c
      · obtain ⟨pages, subs, hpok, hcok, hshape⟩ :=
          migrateCategory_ok_shape c m htc hok
        have h1 : cleanV (jsOr (getField c "name") (.str "Unnamed Category")) = true :=
          cleanV_jsOr _ _ (cleanV_getField c hc "name") (by rfl)
        have hpagesC : cleanL pages = true := by
          rcases migratePagesOf_ok _ pages hpok with
            ⟨ps, pprops, hfield, hpeq⟩ | ⟨_, hpeq⟩
          · have hpsc : cleanL ps = true := by
              have := cleanV_getField_of_truthy c hc "pages"
                (by rw [hfield]; rfl)
              rw [hfield, cleanV] at this
              simp only [Bool.and_eq_true] at this
              exact this.2
            rw [hpeq]
            apply cleanL_of_forall
            intro q hq
            obtain ⟨hqf, hqt⟩ := List.mem_filter.mp hq
            obtain ⟨p0, hp0, hp0eq⟩ := List.mem_map.mp hqf
            rw [← hp0eq]
            exact migratePage_clean p0 (cleanL_mem ps hpsc p0 hp0)
              (by rw [hp0eq]; exact hqt)
          · rw [hpeq]
            rfl
        have hsubsC : cleanL subs = true := by
          rcases migrateCategoriesOf_ok _ subs hcok with
            ⟨cs, cprops, ms, hfield, hml, hseq⟩ | ⟨_, hseq⟩
          · have hcsc : cleanL cs = true := by
              have := cleanV_getField_of_truthy c hc "categories"
                (by rw [hfield]; rfl)
              rw [hfield, cleanV] at this
              simp only [Bool.and_eq_true] at this
              exact this.2
            rw [hseq]
            apply cleanL_of_forall
            intro q hq
            obtain ⟨hqm, _⟩ := List.mem_filter.mp hq
            obtain ⟨c0, hc0, hc0ok⟩ := migrateCatList_ok_mem cs ms hml q hqm
            have hsize := sizeOf_mem_field_lt c c0 "categories" cs cprops hfield hc0
            exact ih c0 (by omega) (cleanL_mem cs hcsc c0 hc0) q hc0ok
          · rw [hseq]
            rfl
        rcases hshape with ⟨hcol, hm⟩ | ⟨hcol, hm⟩
        · rw [hm, cleanV]
          simp [cleanF, h1, cleanV, hpagesC, hsubsC]
        · have hcolC : cleanV (getField c "collapsed") = true := by
            rcases cleanV_getField c hc "collapsed" with h | h
            · exact absurd h hcol
            · exact h
          rw [hm, cleanV, cleanF_append]
          simp [cleanF, h1, cleanV, hpagesC, hsubsC, hcolC]
      · rw [ConfigParser._migrateCategory] at hok
        simp only [htc] at hok
        simp at hok
        rw [← hok]
        rfl

/-- A service object of the exact shape `migrate` produces from an object
input is a fixed point of `migrate`. -/
lemma migrate_obj_fix (fields : List (String × JSValue)) (ms : List JSValue)
    (hf : cleanF fields = true) (hmsC : cleanL ms = true)
    (hmsP : ∀ q ∈ ms, ConfigParser._migrateCategory q = .ok q) :
    ConfigParser.migrate (.obj (putKey fields "categories" (.arr ms []))) =
      .ok (.obj (putKey fields "categories" (.arr ms []))) := by
  rw [ConfigParser.migrate]
  simp only [truthy_obj, Bool.not_true, Bool.false_eq_true, not_false_eq_true,
    ite_false, if_neg]
  have hcy : cleanV (.obj (putKey fields "categories" (.arr ms []))) = true := by
    rw [cleanV]
    apply cleanF_putKey _ _ _ hf
    rw [cleanV]
    simp [hmsC]
  have hclone : deepClone (.obj (putKey fields "categories" (.arr ms []))) =
      .obj (putKey fields "categories" (.arr ms [])) :=
    (clean_fix (sizeOf (JSValue.obj (putKey fields "categories" (.arr ms []))) + 1)).1
      _ (by omega) hcy
  rw [hclone]
  have hget : getField (.obj (putKey fields "categories" (.arr ms []))) "categories" =
      .arr ms [] := by
    simp [getField, lookupKey_putKey]
  rw [hget]
  simp only [truthy_arr, Bool.not_true, Bool.false_eq_true, not_false_eq_true,
    ite_false, if_neg]
  simp only [Bind.bind, Except.bind]
  simp only [hget]
  rw [migrateCatList_of_pointwise ms hmsP]
  simp only [Bind.bind, Except.bind]
  simp [setField, putKey_putKey]

/-- Same fixed-point fact for a (cloned) array input, which acquires a
`categories` property alongside its elements. -/
lemma migrate_arr_fix (elems : List JSValue) (he : cleanL elems = true) :
    ConfigParser.migrate (.arr elems [("categories", .arr [] [])]) =
      .ok (.arr elems [("categories", .arr [] [])]) := by
  rw [ConfigParser.migrate]
  simp only [truthy_arr, Bool.not_true, Bool.false_eq_true, not_false_eq_true,
    ite_false, if_neg]
  have hclone : deepClone (.arr elems [("categories", .arr [] [])]) =
      .arr elems [] := by
    rw [deepClone]
    rw [(clean_fix (sizeOf elems + 1)).2.1 elems (by omega) he]
  rw [hclone]
  rw [show getField (.arr elems ([] : List (String × JSValue))) "categories" = .undefined
    from rfl]
  simp only [truthy, Bool.not_false, ite_true, if_pos]
  rw [show setField (.arr elems ([] : List (String × JSValue))) "categories"
      (.arr [] []) = .ok (.arr elems [("categories", .arr [] [])]) from rfl]
  simp only [Bind.bind, Except.bind,
    show getField (JSValue.arr elems [("categories", JSValue.arr [] [])])
      "categories" = JSValue.arr [] [] from rfl,
    ConfigParser.migrateCatList]
  rfl

/-- C5: `migrate` is idempotent: whenever `migrate x` returns a value `y`,
migrating `y` returns `y` itself (deep equality). -/
theorem claim_C5 (x y : JSValue) (hok : ConfigParser.migrate x = .ok y) :
    ConfigParser.migrate y = .ok y := by
  by_cases htx : truthy x
  · have hxne : x ≠ .undefined := by
      intro h
      rw [h] at htx
      simp [truthy] at htx
    have hcv : cleanV (deepClone x) = true :=
      (clone_clean (sizeOf x + 1)).1 x (by omega) hxne
    rw [ConfigParser.migrate] at hok
    simp only [htx, Bool.not_true, Bool.false_eq_true, not_false_eq_true,
      ite_false, if_neg, Bind.bind, Except.bind] at hok
    by_cases htf : truthy (getField (deepClone x) "categories")
    · simp only [htf, Bool.not_true, Bool.false_eq_true, not_false_eq_true,
        ite_false, if_neg] at hok
      cases hgf : getField (deepClone x) "categories" with
      | arr cats cprops =>
          simp only [hgf] at hok
          cases hml : ConfigParser.migrateCatList cats with
          | error e => rw [hml] at hok; simp at hok
          | ok ms =>
              rw [hml] at hok
              have hcatsC : cleanL cats = true := by
                have := cleanV_getField_of_truthy _ hcv "categories" htf
                rw [hgf, cleanV] at this
                simp only [Bool.and_eq_true] at this
                exact this.2
              have hmsP : ∀ q ∈ ms, ConfigParser._migrateCategory q = .ok q := by
                intro q hq
                obtain ⟨c0, hc0, hc0ok⟩ := migrateCatList_ok_mem cats ms hml q hq
                exact migrateCategory_idem (sizeOf c0 + 1) c0 (by omega) q hc0ok
              have hmsC : cleanL ms = true := by
                apply cleanL_of_forall
                intro q hq
                obtain ⟨c0, hc0, hc0ok⟩ := migrateCatList_ok_mem cats ms hml q hq
                exact migrateCategory_clean (sizeOf c0 + 1) c0 (by omega)
                  (cleanL_mem cats hcatsC c0 hc0) q hc0ok
              cases hv : deepClone x with
              | obj fields =>
                  rw [hv] at hok
                  simp only [setField, Except.ok.injEq] at hok
                  have hfC : cleanF fields = true := by
                    rw [hv, cleanV] at hcv
                    exact hcv
                  rw [← hok]
                  exact migrate_obj_fix fields ms hfC hmsC hmsP
              | arr elems props =>
                  rw [hv, cleanV] at hcv
                  simp only [Bool.and_eq_true, List.isEmpty_iff] at hcv
                  rw [hv, hcv.1] at hgf
                  simp [getField, lookupKey] at hgf
              | undefined => rw [hv] at hok; simp [setField] at hok
              | null => rw [hv] at hok; simp [setField] at hok
              | bool b => rw [hv] at hok; simp [setField] at hok
              | num k => rw [hv] at hok; simp [setField] at hok
              | str s => rw [hv] at hok; simp [setField] at hok
      | undefined => rw [hgf] at htf; simp [truthy] at htf
      | null => rw [hgf] at htf; simp [truthy] at htf
      | bool b => rw [hgf] at hok; simp at hok
      | num k => rw [hgf] at hok; simp at hok
      | str s => rw [hgf] at hok; simp at hok
      | obj fields => rw [hgf] at hok; simp at hok
    · simp only [htf, Bool.not_false, ite_true, if_pos] at hok
      cases hs : setField (deepClone x) "categories" (.arr [] []) with
      | error e => rw [hs] at hok; simp at hok
      | ok v1 =>
          rw [hs] at hok
          have hg1 : getField v1 "categories" = .arr [] [] :=
            getField_setField _ _ _ _ hs
          simp only [hg1, ConfigParser.migrateCatList, Bind.bind, Except.bind] at hok
          cases hv : deepClone x with
          | obj fields =>
              rw [hv] at hs
              simp only [setField, Except.ok.injEq] at hs
              have hfC : cleanF fields = true := by
                rw [hv, cleanV] at hcv
                exact hcv
              rw [← hs] at hok
              simp only [setField, putKey_putKey, Except.ok.injEq] at hok
              rw [← hok]
              exact migrate_obj_fix fields [] hfC (by rfl) (by simp)
          | arr elems props =>
              rw [hv, cleanV] at hcv
              simp only [Bool.and_eq_true, List.isEmpty_iff] at hcv
              rw [hv, hcv.1] at hs
              simp only [setField, putKey, Except.ok.injEq] at hs
              rw [← hs] at hok
              simp only [setField, putKey, Except.ok.injEq] at hok
              rw [← hok]
              exact migrate_arr_fix elems hcv.2
          | undefined => rw [hv] at hs; simp [setField] at hs
          | null => rw [hv] at hs; simp [setField] at hs
          | bool b => rw [hv] at hs; simp [setField] at hs
          | num k => rw [hv] at hs; simp [setField] at hs
          | str s => rw [hv] at hs; simp [setField] at hs
  · rw [ConfigParser.migrate] at hok
    simp only [htx] at hok
    simp at hok
    rw [← hok]
    have := migrate_obj_fix [] [] (by rfl) (by rfl) (by simp)
    simpa [putKey] using this

/-- C5 witness: a migrated config is a fixed point of `migrate`. -/
theorem claim_C5_witness :
    ConfigParser.migrate (.obj [("categories", .arr [.obj [("name", .str "A")]] [])]) =
      .ok (.obj [("categories",
        .arr [.obj [("name", .str "A"), ("pages", .arr [] []),
                    ("categories", .arr [] [])]] [])]) ∧
    ConfigParser.migrate
        (.obj [("categories",
          .arr [.obj [("name", .str "A"), ("pages", .arr [] []),
                      ("categories", .arr [] [])]] [])]) =
      .ok (.obj [("categories",
        .arr [.obj [("name", .str "A"), ("pages", .arr [] []),
                    ("categories", .arr [] [])]] [])]) := by
  have hmig : ConfigParser.migrate
      (.obj [("categories", .arr [.obj [("name", .str "A")]] [])]) =
      .ok (.obj [("categories",
        .arr [.obj [("name", .str "A"), ("pages", .arr [] []),
                    ("categories", .arr [] [])]] [])]) := by
    simp [ConfigParser.migrate, truthy, getField, lookupKey, deepClone,
      cloneFields, cloneElems, ConfigParser.migrateCatList,
      ConfigParser._migrateCategory, ConfigParser.migratePagesOf,
      ConfigParser.migrateCategoriesOf, jsOr, setField, putKey,
      Bind.bind, Except.bind]
  exact ⟨hmig, claim_C5 _ _ hmig⟩

end DMPanel